import Mathlib

/-!
# Streaming HTTP/1.1 request parser (`src/http.cpp`)

A shallow embedding of `http::req_msg::parser` and of the helpers it calls.

* A `std::string` / `std::string_view` is a `List Char`; a `Char` stands for one
  byte (the code points `0 .. 255`).
* The coroutine receives its input through `co_wait_message data`.  A run of the
  coroutine is a function of the list of chunks the driver has available: every
  `co_wait_message` takes the next chunk of that list, and when the list is
  empty the coroutine stays suspended.
* The `while (true)` header loop is a recursion on a fuel argument; `parser`
  supplies a fuel that is shown to be sufficient (`parser_total`).
-/

namespace http

/-- Contents of a `std::string` or a `std::string_view`. -/
abbrev Bytes := List Char

abbrev CR : Char := '\r'
abbrev LF : Char := '\n'
abbrev SP : Char := ' '
abbrev HTAB : Char := '\t'
abbrev CRLF : Bytes := [CR, LF]

/-! ## Character classes (`http.cpp` 20-44) -/

/-- The `char` array a C++ string literal denotes: its characters followed by the
terminating NUL.  A range-`for` over the literal visits every element of that array. -/
def c_literal (s : String) : List Char := s.toList ++ [Char.ofNat 0]

/-- Embedding of `tchar_helper_map()`: entry `i` of the 256-entry table is `true` iff some
element of the literal has byte value `i`. -/
def tchar_helper_map (i : Nat) : Bool :=
  (c_literal "0123456789ABCDEFGHIJKLMNOPQRSTUVWXYZabcdefghijklmnopqrstuvwxyz!#$%&'*+-.^_`|~").any
    (fun c => c.toNat == i)

/-- Embedding of `is_tchar(c)`: table lookup at the byte value of `c`. -/
def is_tchar (c : Char) : Bool := tchar_helper_map c.toNat

/-- Embedding of `absolute_path_char_helper_map()`. -/
def absolute_path_char_helper_map (i : Nat) : Bool :=
  (c_literal "0123456789ABCDEFGHIJKLMNOPQRSTUVWXYZabcdefghijklmnopqrstuvwxyz-._~!$&'()*+,;=:@/").any
    (fun c => c.toNat == i)

/-- Embedding of `is_absolute_path_char(c)`. -/
def is_absolute_path_char (c : Char) : Bool := absolute_path_char_helper_map c.toNat

/-! ## Percent decoding (`http.cpp` 46-67) -/

/-- Modelled from the spec: `basic::is_hex_digit` (`basic.h` is not among the sources).  The spec
names the hex-digit utility as a pure function; it accepts `0-9`, `a-f`, `A-F`. -/
def is_hex_digit (c : Char) : Bool :=
  ('0' ≤ c && c ≤ '9') || ('a' ≤ c && c ≤ 'f') || ('A' ≤ c && c ≤ 'F')

/-- Modelled from the spec: `basic::hex_to_int` (`basic.h` is not among the sources): the value
of a hexadecimal digit, `0` for any other character. -/
def hex_to_int (c : Char) : Nat :=
  if '0' ≤ c && c ≤ '9' then c.toNat - '0'.toNat
  else if 'a' ≤ c && c ≤ 'f' then c.toNat - 'a'.toNat + 10
  else if 'A' ≤ c && c ≤ 'F' then c.toNat - 'A'.toNat + 10
  else 0

/-- Embedding of `pct_decode(const char* hex)`:
`static_cast<char>(hex_to_int(hex[0]) << 4 | hex_to_int(hex[1]))`. -/
def pct_decode_hex (h0 h1 : Char) : Char :=
  Char.ofNat (((hex_to_int h0 <<< 4) ||| hex_to_int h1) % 256)

/-- Embedding of `pct_decode(std::string_view)`: the loop of lines 52-65, `res` being the
string built so far. -/
def pct_decode_loop (res : Bytes) : Bytes → Option Bytes
  | [] => some res
  | c :: rest =>
    if c = '%' then
      match rest with
      | h0 :: h1 :: rest2 =>
        if is_hex_digit h0 && is_hex_digit h1 then
          pct_decode_loop (res ++ [pct_decode_hex h0 h1]) rest2
        else none
      | _ => none
    else pct_decode_loop (res ++ [c]) rest

/-- Embedding of `pct_decode(std::string_view str)`. -/
def pct_decode (str : Bytes) : Option Bytes := pct_decode_loop [] str

/-! ## Tokens, paths, queries, targets (`http.cpp` 77-156) -/

/-- The value of `end` when the loop of `parse_token` stops. -/
def parse_token_end (is_valid : Char → Bool) : Bytes → Nat
  | [] => 0
  | c :: rest => if is_valid c then parse_token_end is_valid rest + 1 else 0

/-- Embedding of `parse_token(str, is_valid)`: `str.substr(0, end)`. -/
def parse_token (str : Bytes) (is_valid : Char → Bool) : Bytes :=
  str.take (parse_token_end is_valid str)

/-- Embedding of `parse_absolute_path`: the loop of lines 94-107, `res` being the string built
so far. -/
def parse_absolute_path_loop (res : Bytes) : Bytes → Option Bytes
  | [] => some res
  | c :: rest =>
    if !is_absolute_path_char c then
      match rest with
      | h0 :: h1 :: rest2 =>
        if c = '%' && is_hex_digit h0 && is_hex_digit h1 then
          parse_absolute_path_loop (res ++ [pct_decode_hex h0 h1]) rest2
        else none
      | _ => none
    else parse_absolute_path_loop (res ++ [c]) rest

/-- Embedding of `parse_absolute_path(std::string_view path)`. -/
def parse_absolute_path (path : Bytes) : Option Bytes := parse_absolute_path_loop [] path

/-- Embedding of `is_valid_absolute_query(std::string_view query)`. -/
def is_valid_absolute_query : Bytes → Bool
  | [] => true
  | c :: rest =>
    if !is_absolute_path_char c && c != '?' then
      match rest with
      | h0 :: h1 :: rest2 =>
        if c = '%' && is_hex_digit h0 && is_hex_digit h1 then is_valid_absolute_query rest2
        else false
      | _ => false
    else is_valid_absolute_query rest

/-- Modelled from the spec: `origin_form` of `http.h` (not among the sources): a path and a
query, both strings (`query_t{}` is the empty query). -/
structure origin_form where
  path : Bytes
  query : Bytes
deriving DecidableEq, Repr

/-- Modelled from the spec: `request_target_t` of `http.h` (not among the sources): either an
origin form or the absolute form, which is an empty shape. -/
inductive request_target_t
  | origin (o : origin_form)
  | absolute_form
deriving DecidableEq, Repr

/-- Embedding of `str.find(ch)`: index of the first occurrence of `ch`, `none` for `npos`. -/
def find_char (ch : Char) : Bytes → Option Nat
  | [] => none
  | c :: rest => if c = ch then some 0 else (find_char ch rest).map (· + 1)

/-- Embedding of `parse_request_target(std::string_view str)`. -/
def parse_request_target (str : Bytes) : Option request_target_t :=
  if str.head? = some '/' then
    match find_char '?' str with
    | none =>
      match parse_absolute_path str with
      | none => none
      | some path => some (.origin ⟨path, []⟩)
    | some pos =>
      let path := parse_absolute_path (str.take pos)
      let query := str.drop (pos + 1)
      let is_query := is_valid_absolute_query query
      match path with
      | none => none
      | some p => if !is_query then none else some (.origin ⟨p, query⟩)
  else some .absolute_form

/-! ## Trimming (`http.cpp` 160-170) -/

/-- The value of `start` after the first loop of `trim_string_view`. -/
def trim_start : Bytes → Nat
  | [] => 0
  | c :: rest => if c = SP ∨ c = HTAB then trim_start rest + 1 else 0

/-- The value of `end` after the second loop of `trim_string_view`, entered with `end = e`. -/
def trim_end (str : Bytes) (start : Nat) : Nat → Nat
  | 0 => 0
  | e + 1 =>
    if e + 1 > start ∧ (str.getD e SP = SP ∨ str.getD e SP = HTAB) then trim_end str start e
    else e + 1

/-- Embedding of `trim_string_view(str)`: `str.substr(start, end - start)`. -/
def trim_string_view (str : Bytes) : Bytes :=
  let start := trim_start str
  let e := trim_end str start str.length
  (str.drop start).take (e - start)

/-! ## Helpers and types declared outside `http.cpp` -/

/-- Modelled from the spec: `basic::split_string_view` (`basic.h` is not among the sources).
The spec says the request line is split on the space character into parts; every delimiter
separates two parts, so empty parts are kept. -/
def split_string_view : Bytes → Char → List Bytes
  | [], _ => [[]]
  | c :: rest, d =>
    if c = d then [] :: split_string_view rest d
    else
      match split_string_view rest d with
      | [] => [[c]]
      | p :: ps => (c :: p) :: ps

/-- Modelled from the spec: `method_t` of `http.h` (not among the sources): the nine methods of
the spec's data model. -/
inductive method_t
  | GET | HEAD | POST | PUT | DELETE | OPTIONS | TRACE | CONNECT | PATCH
deriving DecidableEq, Repr

/-- The enumerator name of a method. -/
def method_t.name : method_t → Bytes
  | .GET => "GET".toList
  | .HEAD => "HEAD".toList
  | .POST => "POST".toList
  | .PUT => "PUT".toList
  | .DELETE => "DELETE".toList
  | .OPTIONS => "OPTIONS".toList
  | .TRACE => "TRACE".toList
  | .CONNECT => "CONNECT".toList
  | .PATCH => "PATCH".toList

/-- All enumerators of `method_t`. -/
def method_t.all : List method_t :=
  [.GET, .HEAD, .POST, .PUT, .DELETE, .OPTIONS, .TRACE, .CONNECT, .PATCH]

/-- Modelled from the spec: `meta::enum_from_string<method_t>` (`meta.h` is not among the
sources): the enumerator whose name is the string, nothing for an unknown name. -/
def enum_from_string (s : Bytes) : Option method_t :=
  method_t.all.find? (fun m => m.name == s)

/-- Modelled from the spec: `math::stoi` (`math.h` is not among the sources).  The spec has
`Content-Length` parse as a non-negative integer and has a non-numeric or negative value
rejected: a non-empty run of decimal digits yields its value, anything else yields nothing. -/
def stoi (s : Bytes) : Option Nat :=
  if s ≠ [] ∧ s.all Char.isDigit then
    some (s.foldl (fun n c => 10 * n + (c.toNat - '0'.toNat)) 0)
  else none

/-- Modelled from the spec: the header map of `http.h` (not among the sources): a mapping from
field-name to field-value whose keys are compared case-insensitively and stored verbatim.  The
entries are listed in insertion order. -/
abbrev header_t := List (Bytes × Bytes)

/-- Case-insensitive comparison of two field-names (ASCII letters). -/
def ci_equal (a b : Bytes) : Bool := a.map Char.toLower == b.map Char.toLower

/-- Embedding of `header.find(key)`: the value stored under a key equal to `key`. -/
def header_t.find (h : header_t) (key : Bytes) : Option Bytes :=
  (List.find? (fun e => ci_equal e.1 key) h).map (·.2)

/-- Embedding of `header.emplace(key, value)`: inserts unless an equal key is already present. -/
def header_t.emplace (h : header_t) (key value : Bytes) : header_t :=
  if h.any (fun e => ci_equal e.1 key) then h else h ++ [(key, value)]

/-- Modelled from the spec: the request line of `http.h`: `(method, target, version)`. -/
structure request_line where
  method : method_t
  target : request_target_t
  version : Bytes
deriving DecidableEq, Repr

/-- Modelled from the spec: `req_msg` of `http.h` (not among the sources): the request in
progress.  `line = none` stands for a request line the parser has not assigned yet. -/
structure req_msg where
  line : Option request_line
  header : header_t
  body : Option Bytes
deriving DecidableEq, Repr

/-- A request nothing has been stored in. -/
def req_msg.fresh : req_msg := ⟨none, [], none⟩

/-! ## The coroutine `req_msg::parser` (`http.cpp` 172-280) -/

/-- Embedding of `data.find(CRLF)`: index of the first `"\r\n"`, `none` for `npos`. -/
def find_CRLF : Bytes → Option Nat
  | [] => none
  | c :: rest =>
    if c = CR ∧ rest.head? = some LF then some 0 else (find_CRLF rest).map (· + 1)

/-- Embedding of `data.starts_with(CRLF)`. -/
def starts_with_CRLF : Bytes → Bool
  | c :: d :: _ => c == CR && d == LF
  | _ => false

/-- The `while (true)` loop of the macro `get_line()` (lines 187-199): every iteration takes the
next chunk.  `none`: no chunk is left, the coroutine stays suspended.  Otherwise
`(line_view, data, line_buffer, chunks)` at the `break`. -/
def get_line_wait (line_buffer : Bytes) :
    List Bytes → Option (Bytes × Bytes × Bytes × List Bytes)
  | [] => none
  | data :: chunks =>
    match find_CRLF data with
    | none => get_line_wait (line_buffer ++ data) chunks
    | some line_end =>
      let line_buffer := line_buffer ++ data.take line_end
      some (line_buffer, data.drop (line_end + 2), line_buffer, chunks)

/-- The macro `get_line()` (lines 181-200). -/
def get_line (data line_buffer : Bytes) (chunks : List Bytes) :
    Option (Bytes × Bytes × Bytes × List Bytes) :=
  match find_CRLF data with
  | some line_end => some (data.take line_end, data.drop (line_end + 2), line_buffer, chunks)
  | none => get_line_wait (line_buffer ++ data) chunks

/-- Lines 205-223: the request line from `line_view`; `none` is `co_return std::nullopt`. -/
def parse_request_line (line_view : Bytes) : Option request_line :=
  let req_line_parts := split_string_view line_view SP
  match req_line_parts with
  | [p0, p1, p2] =>
    match enum_from_string p0 with
    | none => none
    | some method =>
      match parse_request_target p1 with
      | some req_target => some ⟨method, req_target, p2⟩
      | none => none
  | _ => none

/-- Lines 236-252: field-name and field-value token of one header line, before trimming; `none`
is `co_return std::nullopt`. -/
def parse_header_line (line_view : Bytes) : Option (Bytes × Bytes) :=
  let key := parse_token line_view is_tchar
  let line_view := line_view.drop key.length
  if key.isEmpty then none
  else if line_view.isEmpty || line_view.head? != some ':' then none
  else
    let line_view := line_view.drop 1
    let value := parse_token line_view (fun c => is_tchar c || c == ' ')
    if value.isEmpty then none
    else some (key, value)

/-- How the header loop is left. -/
inductive loop_exit
  | suspended (self : req_msg)
  | failed (self : req_msg) (chunks : List Bytes)
  | broke (self : req_msg) (data : Bytes) (chunks : List Bytes)
deriving DecidableEq, Repr

/-- The header loop (lines 230-254), one unit of fuel per iteration; `none` only when the fuel
runs out. -/
def header_loop : Nat → req_msg → Bytes → Bytes → List Bytes → Option loop_exit
  | 0, _, _, _, _ => none
  | fuel + 1, self, data, line_buffer, chunks =>
    if starts_with_CRLF data then some (.broke self (data.drop 2) chunks)
    else
      match get_line data line_buffer chunks with
      | none => some (.suspended self)
      | some (line_view, data, _, chunks) =>
        match parse_header_line line_view with
        | none => some (.failed self chunks)
        | some (key, value) =>
          header_loop fuel
            { self with
              header := self.header.emplace (trim_string_view key) (trim_string_view value) }
            data [] chunks

/-- The body loop (lines 262-271).  `none`: suspended with no chunk left.  Otherwise
`(body_buffer, data, chunks)` when the loop is left.  After the `else` branch
`body_buffer.size() == content_length`, so the loop condition fails at once. -/
def body_loop (content_length : Nat) :
    Bytes → Bytes → List Bytes → Option (Bytes × Bytes × List Bytes)
  | body_buffer, data, chunks =>
    if body_buffer.length < content_length then
      let need_to_read := content_length - body_buffer.length
      if need_to_read > data.length then
        match chunks with
        | [] => none
        | next :: chunks => body_loop content_length (body_buffer ++ data) next chunks
      else some (body_buffer ++ data.take need_to_read, data.drop need_to_read, chunks)
    else some (body_buffer, data, chunks)

/-- What `co_await`ing the task gives the driver. -/
inductive outcome
  | suspended
  | returned (r : Option Bytes)
deriving DecidableEq, Repr

/-- A run of the coroutine: its outcome, the request object, the chunks never taken. -/
structure run where
  result : outcome
  self : req_msg
  pending : List Bytes
deriving DecidableEq, Repr

/-- Lines 256-279: the body and the final `co_return data`. -/
def parse_body (self : req_msg) (data : Bytes) (chunks : List Bytes) : run :=
  match self.header.find "Content-Length".toList with
  | none => ⟨.returned (some data), self, chunks⟩
  | some value =>
    match stoi value with
    | none => ⟨.returned none, self, chunks⟩
    | some content_length =>
      if content_length > 0 then
        match body_loop content_length [] data chunks with
        | none => ⟨.suspended, self, []⟩
        | some (body_buffer, data, chunks) =>
          ⟨.returned (some data), { self with body := some body_buffer }, chunks⟩
      else ⟨.returned (some data), self, chunks⟩

/-- Lines 174-254: the request line and the header loop, with `fuel` iterations allowed to the
header loop. -/
def parse_head (fuel : Nat) (self : req_msg) : List Bytes → Option loop_exit
  | [] => some (.suspended self)
  | data :: chunks =>
    match get_line data [] chunks with
    | none => some (.suspended self)
    | some (line_view, data, _, chunks) =>
      match parse_request_line line_view with
      | none => some (.failed self chunks)
      | some line => header_loop fuel { self with line := some line } data [] chunks

/-- What the coroutine does once the header loop is left: it stays suspended, it has
`co_return`ed `std::nullopt`, or it goes on with the body. -/
def loop_exit.finish : loop_exit → run
  | .suspended self => ⟨.suspended, self, []⟩
  | .failed self chunks => ⟨.returned none, self, chunks⟩
  | .broke self data chunks => parse_body self data chunks

/-- The coroutine body with `fuel` iterations allowed to the header loop. -/
def parser_fuel (fuel : Nat) (self : req_msg) (chunks : List Bytes) : Option run :=
  (parse_head fuel self chunks).map loop_exit.finish

/-- Embedding of `req_msg::parser()` run on the request object `self` with the chunks
`chunks`; the fuel is enough for every input (`parser_total`). -/
def parser (self : req_msg) (chunks : List Bytes) : Option run :=
  parser_fuel (chunks.flatten.length + 1) self chunks

/-! ## Notions used to state the properties -/

/-- The input cursor moves from the position `data` of the current chunk, with `chunks` still
to come, to the position `data'` with `chunks'` still to come: the chunks taken in between are
`used`, the bytes passed over are `consumed`, and `data'` is a suffix of the last chunk taken. -/
def advances (data : Bytes) (chunks : List Bytes) (consumed data' : Bytes)
    (chunks' : List Bytes) : Prop :=
  ∃ used : List Bytes, chunks = used ++ chunks' ∧ data ++ used.flatten = consumed ++ data' ∧
    data' <:+ used.getLast?.getD data

/-- The coroutine, started on the request object `self0` with the chunks `chunks0`, arrives at
the top of the header loop (line 230) with the request object `self`, the cursor `data` and
the chunks `chunks` still to come: after the request line, and after every accepted header
line. -/
inductive at_header_loop (self0 : req_msg) (chunks0 : List Bytes) :
    req_msg → Bytes → List Bytes → Prop
  | request_line (data0 : Bytes) (rest0 : List Bytes) (line data lb : Bytes)
      (chunks : List Bytes) (rl : request_line) :
      chunks0 = data0 :: rest0 → get_line data0 [] rest0 = some (line, data, lb, chunks) →
      parse_request_line line = some rl →
      at_header_loop self0 chunks0 { self0 with line := some rl } data chunks
  | header_line (self : req_msg) (data : Bytes) (chunks : List Bytes) (line data' lb : Bytes)
      (chunks' : List Bytes) (key value : Bytes) :
      at_header_loop self0 chunks0 self data chunks → starts_with_CRLF data = false →
      get_line data [] chunks = some (line, data', lb, chunks') →
      parse_header_line line = some (key, value) →
      at_header_loop self0 chunks0
        { self with header := self.header.emplace (trim_string_view key) (trim_string_view value) }
        data' chunks'

/-- Every character of the string is accepted by `allowed` or is a `%` followed by two
hexadecimal digits, which are then passed over. -/
def pct_valid (allowed : Char → Bool) : Bytes → Bool
  | [] => true
  | c :: rest =>
    if allowed c then pct_valid allowed rest
    else
      match rest with
      | h0 :: h1 :: rest2 =>
        c == '%' && is_hex_digit h0 && is_hex_digit h1 && pct_valid allowed rest2
      | _ => false

/-- Space or horizontal tab, the characters `trim_string_view` strips. -/
def is_blank (c : Char) : Bool := c == SP || c == HTAB

/-! ### Wire serialisation of a request -/

/-- The upper-case hexadecimal digit of value `n < 16`. -/
def hex_char (n : Nat) : Char :=
  if n < 10 then Char.ofNat ('0'.toNat + n) else Char.ofNat ('A'.toNat + (n - 10))

/-- Percent-encoding: a byte `keep` accepts is copied, any other byte is written as `%` and
its two hexadecimal digits. -/
def pct_encode (keep : Char → Bool) : Bytes → Bytes
  | [] => []
  | c :: rest =>
    (if keep c then [c] else ['%', hex_char (c.toNat / 16), hex_char (c.toNat % 16)]) ++
      pct_encode keep rest

/-- The target on the wire: the percent-encoded path, then `?` and the query when there is
one. -/
def serialize_target (o : origin_form) : Bytes :=
  pct_encode is_absolute_path_char o.path ++ (if o.query = [] then [] else '?' :: o.query)

/-- A header line on the wire: `name: value` and CRLF. -/
def serialize_header (e : Bytes × Bytes) : Bytes := e.1 ++ ':' :: SP :: (e.2 ++ CRLF)

/-- The request on the wire: request line, header lines, blank line, body; every line ended by
CRLF. -/
def serialize (m : method_t) (o : origin_form) (version : Bytes) (header : header_t)
    (body : Option Bytes) : Bytes :=
  (m.name ++ SP :: (serialize_target o ++ SP :: version)) ++ CRLF ++
    ((header.map serialize_header).flatten ++ CRLF ++ body.getD [])

/-- The requests the round trip holds for.  The path begins with `/` and is made of
bytes; the query is made of absolute-path characters, `?` and `%XY` triplets; the version has
no space and no CR; header names are non-empty runs of tchars, distinct up to letter case;
header values are made of tchars and spaces and neither begin nor end with a space; a
`Content-Length` header, when present, is a decimal number `n`, and the body is present
exactly when `n > 0` and then has `n` bytes. -/
structure in_grammar (o : origin_form) (version : Bytes) (header : header_t)
    (body : Option Bytes) : Prop where
  path_origin : o.path.head? = some '/'
  path_bytes : ∀ c ∈ o.path, c.toNat < 256
  query_valid : pct_valid (fun c => is_absolute_path_char c || c == '?') o.query = true
  version_plain : ∀ c ∈ version, c ≠ SP ∧ c ≠ CR
  names : ∀ e ∈ header, e.1 ≠ [] ∧ ∀ c ∈ e.1, is_tchar c = true
  values : ∀ e ∈ header, (∀ c ∈ e.2, is_tchar c = true ∨ c = SP) ∧
    e.2.head? ≠ some SP ∧ e.2.getLast? ≠ some SP
  distinct : header.Pairwise (fun a b => ci_equal a.1 b.1 = false)
  content_length :
    match header.find "Content-Length".toList with
    | none => body = none
    | some value =>
      ∃ n, stoi value = some n ∧
        ((n = 0 ∧ body = none) ∨ (0 < n ∧ ∃ b, body = some b ∧ b.length = n))

/-! ### Notions for the percent escapes and the character classes -/

/-- What follows a `%` is good: at least two characters, both hexadecimal digits. -/
def percent_followed (post : Bytes) : Bool :=
  match post with
  | h0 :: h1 :: _ => is_hex_digit h0 && is_hex_digit h1
  | _ => false

/-- The string contains a `%` that is not followed by two hexadecimal digits. -/
def has_bad_percent (s : Bytes) : Prop :=
  ∃ pre post : Bytes, s = pre ++ '%' :: post ∧ percent_followed post = false

/-- The string with every `%XY` triplet replaced by the single byte of value
`16 * hex(X) + hex(Y)` and every other character copied, in order (a `%` with fewer than two
characters after it starts no triplet). -/
def pct_replace : Bytes → Bytes
  | [] => []
  | c :: rest =>
    if c = '%' then
      match rest with
      | x :: y :: rest2 => Char.ofNat (16 * hex_to_int x + hex_to_int y) :: pct_replace rest2
      | _ => c :: rest
    else c :: pct_replace rest

/-- The number of `%XY` triplets of the string, read from the left. -/
def pct_triplets : Bytes → Nat
  | [] => 0
  | c :: rest =>
    if c = '%' then
      match rest with
      | _ :: _ :: rest2 => pct_triplets rest2 + 1
      | _ => 0
    else pct_triplets rest

/-- The token characters of RFC 7230: ASCII digits, ASCII letters and fifteen symbols. -/
def is_rfc_tchar (c : Char) : Bool :=
  c.isDigit || c.isAlpha || "!#$%&'*+-.^_`|~".toList.contains c

/-- The characters of an absolute path: unreserved (letters, digits, `-._~`), sub-delims
and `:`, `@`, `/`. -/
def is_rfc_path_char (c : Char) : Bool :=
  c.isAlpha || c.isDigit || "-._~".toList.contains c || "!$&'()*+,;=".toList.contains c ||
    ":@/".toList.contains c

end http

/-! # The io_uring runtime (`src/coro_io_ctx.h`, `src/coro_io.h`)

Sequential embedding on the explicit state: the atomic flag is a `Bool`, the semaphore is its
counter, the queue is the list of its elements, head first. -/

namespace coro_io

/-- Embedding of `coro_io_ctx::request` (coro_io_ctx.h 19-22): the helper pointer and the
handler, both as opaque addresses. -/
structure request where
  helper_ptr : Nat
  ring_handle : Nat
deriving DecidableEq, Repr

/-- The members of `coro_io_ctx` that `submit` reads and writes (coro_io_ctx.h 91-97). -/
structure coro_io_ctx where
  is_worker_running : Bool
  unp_sem : Nat
  unprocessed_requests : List request
deriving DecidableEq, Repr

/-- Modelled from the spec: `mpsc_queue::emplace_back` (`structs/mpsc_queue.h` is not among the
sources): the queue keeps the pushes in order, so a push puts the element at the tail. -/
def mpsc_queue_emplace_back (q : List request) (helper_ptr ring_handle : Nat) : List request :=
  q ++ [⟨helper_ptr, ring_handle⟩]

/-- Embedding of `coro_io_ctx::submit` (coro_io_ctx.h 54-61): the value returned and the
state afterwards; `unp_sem.release()` adds one permit. -/
def coro_io_ctx.submit (self : coro_io_ctx) (helper_ptr ring_handle : Nat) :
    Bool × coro_io_ctx :=
  if self.is_worker_running then
    (true,
      { self with
        unprocessed_requests :=
          mpsc_queue_emplace_back self.unprocessed_requests helper_ptr ring_handle
        unp_sem := self.unp_sem + 1 })
  else (false, self)

/-- The completion queue entry of liburing: `__u64 user_data`, `__s32 res`, `__u32 flags`. -/
structure io_uring_cqe where
  user_data : Nat
  res : Int
  flags : Nat
deriving DecidableEq, Repr

/-- The value of `ECANCELED` in the Linux `errno.h`. -/
abbrev ECANCELED : Int := 125

/-- Embedding of `link_timeout::await_resume` (coro_io.h 133-138) on the completion stored in
the inner awaiter's slot. -/
def link_timeout_await_resume (cqe : io_uring_cqe) : Option io_uring_cqe :=
  if cqe.res = -ECANCELED then none else some cqe

end coro_io

namespace http

/-! ## The input cursor and `get_line` -/

theorem advances_refl (data : Bytes) (chunks : List Bytes) : advances data chunks [] data chunks :=
  ⟨[], by simp, by simp, by simp⟩

theorem advances_trans {d0 d1 d2 k1 k2 : Bytes} {c0 c1 c2 : List Bytes}
    (h1 : advances d0 c0 k1 d1 c1) (h2 : advances d1 c1 k2 d2 c2) :
    advances d0 c0 (k1 ++ k2) d2 c2 := by
  obtain ⟨u1, e1, f1, s1⟩ := h1
  obtain ⟨u2, e2, f2, s2⟩ := h2
  refine ⟨u1 ++ u2, by simp [e1, e2], ?_, ?_⟩
  · rw [List.flatten_append, ← List.append_assoc, f1, List.append_assoc, f2, List.append_assoc]
  · rcases List.eq_nil_or_concat u2 with h | ⟨u, l, h⟩
    · subst h
      simp only [List.getLast?_nil, Option.getD_none, List.append_nil] at s2 ⊢
      exact s2.trans s1
    · subst h
      rw [List.concat_eq_append, List.getLast?_concat] at s2
      rw [List.concat_eq_append, ← List.append_assoc, List.getLast?_concat]
      exact s2

theorem advances_length {d0 d1 k : Bytes} {c0 c1 : List Bytes} (h : advances d0 c0 k d1 c1) :
    d0.length + c0.flatten.length = k.length + d1.length + c1.flatten.length := by
  obtain ⟨u, e, f, _⟩ := h
  have := congrArg List.length f
  subst e
  simp only [List.length_append, List.flatten_append] at this ⊢
  omega

theorem find_CRLF_some {data : Bytes} {e : Nat} (h : find_CRLF data = some e) :
    data = data.take e ++ CRLF ++ data.drop (e + 2) := by
  induction data generalizing e with
  | nil => simp [find_CRLF] at h
  | cons c rest ih =>
    unfold find_CRLF at h
    split at h
    · rename_i hc
      obtain ⟨h1, h2⟩ := hc
      cases rest with
      | nil => simp at h2
      | cons d r =>
        simp only [List.head?_cons, Option.some.injEq] at h2
        cases h
        simp [h1, h2]
    · cases hf : find_CRLF rest with
      | none => simp [hf] at h
      | some e' =>
        simp only [hf, Option.map_some', Option.some.injEq] at h
        subst h
        have := ih hf
        simp only [List.take_succ_cons, List.drop_succ_cons, List.cons_append]
        exact congrArg (c :: ·) this

theorem find_CRLF_append_of_no_CR {l : Bytes} (h : ∀ c ∈ l, c ≠ CR) (r : Bytes) :
    find_CRLF (l ++ CR :: LF :: r) = some l.length := by
  induction l with
  | nil => simp [find_CRLF]
  | cons c l ih =>
    have hc : c ≠ CR := h c (by simp)
    have := ih (fun x hx => h x (by simp [hx]))
    simp [find_CRLF, hc, this]

theorem find_CRLF_none_of_no_CR {l : Bytes} (h : ∀ c ∈ l, c ≠ CR) : find_CRLF l = none := by
  induction l with
  | nil => simp [find_CRLF]
  | cons c l ih =>
    have hc : c ≠ CR := h c (by simp)
    have := ih (fun x hx => h x (by simp [hx]))
    simp [find_CRLF, hc, this]

theorem get_line_wait_some {lb : Bytes} {chunks : List Bytes} {line d' lb' : Bytes}
    {c' : List Bytes} (h : get_line_wait lb chunks = some (line, d', lb', c')) :
    ∃ (l2 : Bytes) (used : List Bytes) (last : Bytes), line = lb ++ l2 ∧ chunks = used ++ c' ∧
      used.flatten = l2 ++ CRLF ++ d' ∧ used.getLast? = some last ∧ d' <:+ last := by
  induction chunks generalizing lb with
  | nil => simp [get_line_wait] at h
  | cons data chunks ih =>
    unfold get_line_wait at h
    split at h
    · rename_i hf
      obtain ⟨l2, used, last, h1, h2, h3, h4, h5⟩ := ih h
      refine ⟨data ++ l2, data :: used, last, by simp [h1], by simp [h2], by simp [h3], ?_, h5⟩
      cases used with
      | nil => simp at h4
      | cons u us => simpa using h4
    · rename_i e hf
      simp only [Option.some.injEq, Prod.mk.injEq] at h
      obtain ⟨h1, h2, h3, h4⟩ := h
      subst h4
      refine ⟨data.take e, [data], data, h1.symm, by simp, ?_, by simp, ?_⟩
      · simp only [List.flatten_cons, List.flatten_nil, List.append_nil]
        rw [← h2]; exact find_CRLF_some hf
      · rw [← h2]; exact List.drop_suffix _ _

theorem get_line_advances {data : Bytes} {chunks : List Bytes} {line d' lb' : Bytes}
    {c' : List Bytes} (h : get_line data [] chunks = some (line, d', lb', c')) :
    advances data chunks (line ++ CRLF) d' c' := by
  unfold get_line at h
  split at h
  · rename_i e hf
    simp only [Option.some.injEq, Prod.mk.injEq] at h
    obtain ⟨h1, h2, h3, h4⟩ := h
    subst h4
    refine ⟨[], by simp, ?_, ?_⟩
    · simp only [List.flatten_nil, List.append_nil]
      rw [← h1, ← h2]; exact find_CRLF_some hf
    · simp only [List.getLast?_nil, Option.getD_none]
      rw [← h2]; exact List.drop_suffix _ _
  · obtain ⟨l2, used, last, h1, h2, h3, h4, h5⟩ := get_line_wait_some h
    refine ⟨used, h2, ?_, ?_⟩
    · simp [h1, h3]
    · simp [h4, h5]

/-! ## Fuel of the header loop -/

theorem header_loop_mono {fuel : Nat} {self : req_msg} {data lb : Bytes} {chunks : List Bytes}
    {r : loop_exit} (h : header_loop fuel self data lb chunks = some r) :
    header_loop (fuel + 1) self data lb chunks = some r := by
  induction fuel generalizing self data lb chunks with
  | zero => simp [header_loop] at h
  | succ n ih =>
    rw [header_loop] at h ⊢
    split
    · rename_i hs; simpa [hs] using h
    · rename_i hs
      simp only [hs, Bool.false_eq_true, if_false] at h
      split
      · rename_i hg; simpa [hg] using h
      · rename_i line d' x c' hg
        simp only [hg] at h
        split
        · rename_i hp; simpa [hp] using h
        · rename_i key value hp
          simp only [hp] at h
          exact ih h

theorem header_loop_mono_le {f f' : Nat} {self : req_msg} {data lb : Bytes} {chunks : List Bytes}
    {r : loop_exit} (h : header_loop f self data lb chunks = some r) (hle : f ≤ f') :
    header_loop f' self data lb chunks = some r := by
  induction hle with
  | refl => exact h
  | step _ ih => exact header_loop_mono ih

theorem header_loop_det {f f' : Nat} {self : req_msg} {data lb : Bytes} {chunks : List Bytes}
    {r r' : loop_exit} (h : header_loop f self data lb chunks = some r)
    (h' : header_loop f' self data lb chunks = some r') : r = r' := by
  rcases Nat.le_total f f' with hle | hle
  · have := header_loop_mono_le h hle
    rw [h'] at this; exact (Option.some.inj this).symm
  · have := header_loop_mono_le h' hle
    rw [h] at this; exact Option.some.inj this

theorem header_loop_total {fuel : Nat} (self : req_msg) {data : Bytes} {chunks : List Bytes}
    (hm : data.length + chunks.flatten.length < fuel) :
    ∃ r, header_loop fuel self data [] chunks = some r := by
  induction fuel generalizing self data chunks with
  | zero => omega
  | succ n ih =>
    rw [header_loop]
    split
    · exact ⟨_, rfl⟩
    · split
      · exact ⟨_, rfl⟩
      · rename_i line d' x c' hg
        split
        · exact ⟨_, rfl⟩
        · have := advances_length (get_line_advances hg)
          simp only [List.length_append, List.length_cons, List.length_nil] at this
          exact ih _ (by omega)

theorem parse_head_mono_le {f f' : Nat} {self : req_msg} {chunks : List Bytes} {r : loop_exit}
    (h : parse_head f self chunks = some r) (hle : f ≤ f') :
    parse_head f' self chunks = some r := by
  unfold parse_head at h ⊢
  split
  · simpa using h
  · split
    · rename_i hg; simpa [hg] using h
    · rename_i hg
      simp only [hg] at h
      split
      · rename_i hp; simpa [hp] using h
      · rename_i hp
        simp only [hp] at h
        exact header_loop_mono_le h hle

theorem parse_head_total (self : req_msg) (chunks : List Bytes) :
    ∃ r, parse_head (chunks.flatten.length + 1) self chunks = some r := by
  unfold parse_head
  split
  · exact ⟨_, rfl⟩
  · split
    · exact ⟨_, rfl⟩
    · rename_i hg
      split
      · exact ⟨_, rfl⟩
      · have := advances_length (get_line_advances hg)
        simp only [List.length_append, List.length_cons, List.length_nil] at this
        exact header_loop_total _ (by simp only [List.flatten_cons, List.length_append]; omega)

/-- The fuel `parser` supplies is enough: the run always has a result. -/
theorem parser_total (self : req_msg) (chunks : List Bytes) : ∃ r, parser self chunks = some r := by
  obtain ⟨r, h⟩ := parse_head_total self chunks
  exact ⟨r.finish, by simp only [parser, parser_fuel, h, Option.map_some']⟩

/-- Whatever the fuel, a result of the header stage is the result of `parser`. -/
theorem parser_of_head {f : Nat} {self : req_msg} {chunks : List Bytes} {r : loop_exit}
    (h : parse_head f self chunks = some r) : parser self chunks = some r.finish := by
  obtain ⟨r', h'⟩ := parse_head_total self chunks
  rcases Nat.le_total f (chunks.flatten.length + 1) with hle | hle
  · simp only [parser, parser_fuel, parse_head_mono_le h hle, Option.map_some']
  · have := parse_head_mono_le h' hle
    rw [h] at this
    cases this
    simp only [parser, parser_fuel, h', Option.map_some']

theorem at_header_loop_fuel {self0 self : req_msg} {chunks0 chunks : List Bytes} {data : Bytes}
    (h : at_header_loop self0 chunks0 self data chunks) :
    ∃ k, ∀ f, parse_head (f + k) self0 chunks0 = header_loop f self data [] chunks := by
  induction h with
  | request_line _ _ _ _ _ _ _ h0 hg hp =>
    refine ⟨0, fun f => ?_⟩
    subst h0
    simp [parse_head, hg, hp]
  | header_line _ _ _ _ _ _ _ _ _ _ hs hg hp ih =>
    obtain ⟨k, hk⟩ := ih
    refine ⟨k + 1, fun f => ?_⟩
    rw [show f + (k + 1) = (f + 1) + k by omega, hk (f + 1), header_loop]
    simp [hs, hg, hp]

/-- The result of the header loop entered from a state the coroutine arrives at decides the
result of `parser`. -/
theorem parser_of_at_header_loop {self0 self : req_msg} {chunks0 chunks : List Bytes}
    {data : Bytes} {f : Nat} {r : loop_exit} (h : at_header_loop self0 chunks0 self data chunks)
    (hr : header_loop f self data [] chunks = some r) : parser self0 chunks0 = some r.finish := by
  obtain ⟨k, hk⟩ := at_header_loop_fuel h
  exact parser_of_head ((hk f).trans hr)

/-! ## Byte accounting of the stages -/

theorem starts_with_CRLF_true {data : Bytes} (h : starts_with_CRLF data = true) :
    data = CRLF ++ data.drop 2 := by
  match data, h with
  | c :: d :: rest, h =>
    simp only [starts_with_CRLF, Bool.and_eq_true, beq_iff_eq] at h
    simp [h.1, h.2]

theorem advances_of_starts_with_CRLF {data : Bytes} (chunks : List Bytes)
    (h : starts_with_CRLF data = true) : advances data chunks CRLF (data.drop 2) chunks :=
  ⟨[], by simp, by simpa using starts_with_CRLF_true h, by simpa using List.drop_suffix 2 data⟩

theorem header_loop_broke {f : Nat} {self self1 : req_msg} {data d1 : Bytes}
    {chunks c1 : List Bytes} (h : header_loop f self data [] chunks = some (.broke self1 d1 c1)) :
    ∃ hlines : List Bytes,
      advances data chunks ((hlines.map (· ++ CRLF)).flatten ++ CRLF) d1 c1 ∧
      self1.line = self.line ∧ self1.body = self.body ∧
      ∀ l ∈ hlines, (parse_header_line l).isSome = true := by
  induction f generalizing self data chunks with
  | zero => simp [header_loop] at h
  | succ n ih =>
    rw [header_loop] at h
    split at h
    · rename_i hs
      simp only [Option.some.injEq, loop_exit.broke.injEq] at h
      obtain ⟨h1, h2, h3⟩ := h
      subst h1 h2 h3
      exact ⟨[], by simpa using advances_of_starts_with_CRLF chunks hs, rfl, rfl, by simp⟩
    · split at h
      · simp at h
      · rename_i line d' x c' hg
        split at h
        · simp at h
        · rename_i key value hp
          obtain ⟨hl, ha, h1, h2, h3⟩ := ih h
          refine ⟨line :: hl, ?_, h1, h2, ?_⟩
          · have := advances_trans (get_line_advances hg) ha
            simpa [List.append_assoc] using this
          · intro l hl'
            rcases List.mem_cons.1 hl' with rfl | hm
            · simp [hp]
            · exact h3 l hm

theorem parse_head_broke {f : Nat} {self self1 : req_msg} {d1 : Bytes}
    {chunks c1 : List Bytes} (h : parse_head f self chunks = some (.broke self1 d1 c1)) :
    ∃ (data0 : Bytes) (rest0 : List Bytes) (line : Bytes) (hlines : List Bytes),
      chunks = data0 :: rest0 ∧
      advances data0 rest0 (line ++ CRLF ++ (hlines.map (· ++ CRLF)).flatten ++ CRLF) d1 c1 ∧
      parse_request_line line = self1.line ∧ self1.body = self.body ∧
      ∀ l ∈ hlines, (parse_header_line l).isSome = true := by
  unfold parse_head at h
  split at h
  · simp at h
  · rename_i data0 rest0
    split at h
    · simp at h
    · rename_i line d' x c' hg
      split at h
      · simp at h
      · rename_i rl hp
        obtain ⟨hl, ha, h1, h2, h3⟩ := header_loop_broke h
        refine ⟨data0, rest0, line, hl, rfl, ?_, ?_, h2, h3⟩
        · have := advances_trans (get_line_advances hg) ha
          simpa [List.append_assoc] using this
        · rw [hp, h1]

theorem body_loop_some {n : Nat} {bb data bb' d' : Bytes} {chunks c' : List Bytes}
    (h : body_loop n bb data chunks = some (bb', d', c')) :
    ∃ got, bb' = bb ++ got ∧ advances data chunks got d' c' := by
  induction chunks generalizing bb data with
  | nil =>
    rw [body_loop.eq_1] at h
    dsimp only at h
    split at h
    · split at h
      · simp at h
      · simp only [Option.some.injEq, Prod.mk.injEq] at h
        obtain ⟨h1, h2, h3⟩ := h
        subst h1 h2 h3
        exact ⟨_, rfl, [], by simp, by simp, by simpa using List.drop_suffix _ _⟩
    · simp only [Option.some.injEq, Prod.mk.injEq] at h
      obtain ⟨h1, h2, h3⟩ := h
      subst h1 h2 h3
      exact ⟨[], by simp, advances_refl _ _⟩
  | cons next chunks ih =>
    rw [body_loop.eq_2] at h
    dsimp only at h
    split at h
    · split at h
      · obtain ⟨got, hg, used, hu, hf, hs⟩ := ih h
        refine ⟨data ++ got, by simp [hg], next :: used, by simp [hu], by simp [hf], ?_⟩
        cases used with
        | nil => simpa using hs
        | cons u us => simpa using hs
      · simp only [Option.some.injEq, Prod.mk.injEq] at h
        obtain ⟨h1, h2, h3⟩ := h
        subst h1 h2 h3
        exact ⟨_, rfl, [], by simp, by simp, by simpa using List.drop_suffix _ _⟩
    · simp only [Option.some.injEq, Prod.mk.injEq] at h
      obtain ⟨h1, h2, h3⟩ := h
      subst h1 h2 h3
      exact ⟨[], by simp, advances_refl _ _⟩

theorem parse_body_returned {self self' : req_msg} {data leftover : Bytes}
    {chunks pending : List Bytes}
    (h : parse_body self data chunks = ⟨.returned (some leftover), self', pending⟩)
    (hb : self.body = none) :
    advances data chunks (self'.body.getD []) leftover pending ∧ self'.line = self.line := by
  unfold parse_body at h
  split at h
  · cases h
    simpa [hb] using advances_refl data chunks
  · split at h
    · simp at h
    · split at h
      · split at h
        · simp at h
        · rename_i hbl
          cases h
          obtain ⟨got, hg, ha⟩ := body_loop_some hbl
          simp only [List.nil_append] at hg
          subst hg
          simpa using ha
      · cases h
        simpa [hb] using advances_refl data chunks

/-! ## The body loop -/

theorem body_loop_split {n : Nat} (bb : Bytes) {data c : Bytes} {chunks pre post : List Bytes}
    (hsplit : data :: chunks = pre ++ c :: post) (h1 : bb.length + pre.flatten.length < n)
    (h2 : n ≤ bb.length + pre.flatten.length + c.length) :
    body_loop n bb data chunks =
      some (bb ++ (pre.flatten ++ c).take (n - bb.length),
        c.drop (n - bb.length - pre.flatten.length), post) := by
  induction pre generalizing bb data chunks with
  | nil =>
    simp only [List.nil_append, List.cons.injEq] at hsplit
    obtain ⟨rfl, rfl⟩ := hsplit
    simp only [List.flatten_nil, List.length_nil, Nat.add_zero, List.nil_append,
      Nat.sub_zero] at h1 h2 ⊢
    rw [body_loop.eq_def]
    simp only [h1, if_true]
    rw [if_neg (by omega)]
  | cons p ps ih =>
    simp only [List.cons_append, List.cons.injEq] at hsplit
    obtain ⟨rfl, rfl⟩ := hsplit
    simp only [List.flatten_cons, List.length_append] at h1 h2 ⊢
    have hlt : bb.length < n := by omega
    have hneed : n - bb.length > data.length := by omega
    cases hch : ps ++ c :: post with
    | nil => simp at hch
    | cons next rest =>
      rw [body_loop.eq_2]
      simp only [hlt, if_true, hneed]
      rw [ih _ hch.symm (by simp only [List.length_append]; omega)
        (by simp only [List.length_append]; omega)]
      simp only [List.length_append, List.append_assoc, Option.some.injEq, Prod.mk.injEq,
        and_true]
      refine ⟨?_, by congr 1; omega⟩
      rw [@List.take_append_eq_append_take _ data]
      rw [List.take_of_length_le (by omega : data.length ≤ n - bb.length)]
      rw [show n - (bb.length + data.length) = n - bb.length - data.length by omega]

/-! ## The request line -/

theorem split_string_view_ne_nil (s : Bytes) (d : Char) : split_string_view s d ≠ [] := by
  induction s with
  | nil => simp [split_string_view]
  | cons c rest ih =>
    rw [split_string_view]
    split
    · simp
    · split <;> simp

theorem split_string_view_not_mem {s : Bytes} {d : Char} (h : d ∉ s) :
    split_string_view s d = [s] := by
  induction s with
  | nil => simp [split_string_view]
  | cons c rest ih =>
    have hc : c ≠ d := fun e => h (by simp [e])
    have := ih (fun hm => h (by simp [hm]))
    simp [split_string_view, hc, this]

theorem split_string_view_append {a : Bytes} {d : Char} (h : d ∉ a) (rest : Bytes) :
    split_string_view (a ++ d :: rest) d = a :: split_string_view rest d := by
  induction a with
  | nil => simp [split_string_view]
  | cons c a ih =>
    have hc : c ≠ d := fun e => h (by simp [e])
    have := ih (fun hm => h (by simp [hm]))
    simp [split_string_view, hc, this]

theorem enum_from_string_name (m : method_t) : enum_from_string m.name = some m := by
  cases m <;> decide

theorem method_name_no_SP (m : method_t) : SP ∉ m.name := by
  cases m <;> decide

theorem find_char_none {ch : Char} {s : Bytes} (h : find_char ch s = none) :
    s.takeWhile (· != ch) = s ∧ s.dropWhile (· != ch) = [] := by
  induction s with
  | nil => simp
  | cons c rest ih =>
    rw [find_char] at h
    split at h
    · simp at h
    · rename_i hc
      simp only [Option.map_eq_none'] at h
      simp [hc, ih h]

theorem find_char_some {ch : Char} {s : Bytes} {pos : Nat} (h : find_char ch s = some pos) :
    s.take pos = s.takeWhile (· != ch) ∧ s.drop (pos + 1) = (s.dropWhile (· != ch)).drop 1 := by
  induction s generalizing pos with
  | nil => simp [find_char] at h
  | cons c rest ih =>
    rw [find_char] at h
    split at h
    · rename_i hc
      cases h
      simp [hc]
    · rename_i hc
      cases hf : find_char ch rest with
      | none => simp [hf] at h
      | some p =>
        simp only [hf, Option.map_some', Option.some.injEq] at h
        subst h
        simp [hc, ih hf]

theorem pct_valid_cons (allowed : Char → Bool) (c : Char) (rest : Bytes) :
    pct_valid allowed (c :: rest) =
      if allowed c then pct_valid allowed rest
      else
        match rest with
        | h0 :: h1 :: rest2 =>
          c == '%' && is_hex_digit h0 && is_hex_digit h1 && pct_valid allowed rest2
        | _ => false := by
  rw [pct_valid.eq_def]; rfl

theorem parse_absolute_path_loop_cons (res : Bytes) (c : Char) (rest : Bytes) :
    parse_absolute_path_loop res (c :: rest) =
      if !is_absolute_path_char c then
        match rest with
        | h0 :: h1 :: rest2 =>
          if c = '%' && is_hex_digit h0 && is_hex_digit h1 then
            parse_absolute_path_loop (res ++ [pct_decode_hex h0 h1]) rest2
          else none
        | _ => none
      else parse_absolute_path_loop (res ++ [c]) rest := by
  rw [parse_absolute_path_loop.eq_def]; rfl

theorem pct_decode_loop_cons (res : Bytes) (c : Char) (rest : Bytes) :
    pct_decode_loop res (c :: rest) =
      if c = '%' then
        match rest with
        | h0 :: h1 :: rest2 =>
          if is_hex_digit h0 && is_hex_digit h1 then
            pct_decode_loop (res ++ [pct_decode_hex h0 h1]) rest2
          else none
        | _ => none
      else pct_decode_loop (res ++ [c]) rest := by
  rw [pct_decode_loop.eq_def]; rfl

theorem is_valid_absolute_query_cons (c : Char) (rest : Bytes) :
    is_valid_absolute_query (c :: rest) =
      if !is_absolute_path_char c && c != '?' then
        match rest with
        | h0 :: h1 :: rest2 =>
          if c = '%' && is_hex_digit h0 && is_hex_digit h1 then is_valid_absolute_query rest2
          else false
        | _ => false
      else is_valid_absolute_query rest := by
  rw [is_valid_absolute_query.eq_def]; rfl

theorem pct_loops_agree_aux (n : Nat) : ∀ (s : Bytes), s.length ≤ n →
    pct_valid is_absolute_path_char s = true → ∀ res : Bytes,
    ∃ p, parse_absolute_path_loop res s = some p ∧ pct_decode_loop res s = some p := by
  induction n with
  | zero =>
    intro s hs _ res
    have : s = [] := List.length_eq_zero.1 (by omega)
    subst this
    exact ⟨res, rfl, rfl⟩
  | succ n ih =>
    intro s hs h res
    match s, hs, h with
    | [], _, _ => exact ⟨res, rfl, rfl⟩
    | c :: rest, hs, h =>
      by_cases hc : is_absolute_path_char c = true
      · rw [pct_valid_cons, if_pos hc] at h
        have hne : c ≠ '%' := by rintro rfl; revert hc; decide
        obtain ⟨p, h1, h2⟩ := ih rest (by simpa using hs) h (res ++ [c])
        refine ⟨p, ?_, ?_⟩
        · rw [parse_absolute_path_loop_cons]; simpa [hc] using h1
        · rw [pct_decode_loop_cons]; simpa [hne] using h2
      · rw [pct_valid_cons, if_neg hc] at h
        match rest, hs, h with
        | [], _, h => simp at h
        | [_], _, h => simp at h
        | h0 :: h1 :: rest2, hs, h =>
          simp only [Bool.and_eq_true, beq_iff_eq] at h
          obtain ⟨⟨⟨rfl, hh0⟩, hh1⟩, hv⟩ := h
          obtain ⟨p, e1, e2⟩ := ih rest2 (by simp at hs; omega) hv (res ++ [pct_decode_hex h0 h1])
          refine ⟨p, ?_, ?_⟩
          · rw [parse_absolute_path_loop_cons]; simpa [hc, hh0, hh1] using e1
          · rw [pct_decode_loop_cons]; simpa [hh0, hh1] using e2

theorem pct_loops_agree {s : Bytes} (h : pct_valid is_absolute_path_char s = true) :
    ∃ p, parse_absolute_path s = some p ∧ pct_decode s = some p :=
  pct_loops_agree_aux s.length s (Nat.le_refl _) h []

theorem is_valid_absolute_query_eq_aux (n : Nat) : ∀ (s : Bytes), s.length ≤ n →
    is_valid_absolute_query s = pct_valid (fun c => is_absolute_path_char c || c == '?') s := by
  induction n with
  | zero =>
    intro s hs
    have : s = [] := List.length_eq_zero.1 (by omega)
    subst this
    rfl
  | succ n ih =>
    intro s hs
    match s, hs with
    | [], _ => rfl
    | c :: rest, hs =>
      rw [is_valid_absolute_query_cons, pct_valid_cons]
      by_cases hc : (is_absolute_path_char c || c == '?') = true
      · have hc' : (!is_absolute_path_char c && c != '?') = false := by
          cases h1 : is_absolute_path_char c <;> cases h2 : (c == '?') <;> simp_all
        rw [if_pos hc, hc']
        simpa using ih rest (by simpa using hs)
      · have hc' : (!is_absolute_path_char c && c != '?') = true := by
          cases h1 : is_absolute_path_char c <;> cases h2 : (c == '?') <;> simp_all
        rw [if_neg hc, hc', if_pos rfl]
        match rest, hs with
        | [], _ => rfl
        | [_], _ => rfl
        | h0 :: h1 :: rest2, hs =>
          have := ih rest2 (by simp at hs; omega)
          change (if (decide (c = '%') && is_hex_digit h0 && is_hex_digit h1) = true then
              is_valid_absolute_query rest2 else false) =
            (decide (c = '%') && is_hex_digit h0 && is_hex_digit h1 && pct_valid _ rest2)
          rw [this]
          cases (decide (c = '%') && is_hex_digit h0 && is_hex_digit h1) <;> simp

theorem is_valid_absolute_query_eq (s : Bytes) :
    is_valid_absolute_query s = pct_valid (fun c => is_absolute_path_char c || c == '?') s :=
  is_valid_absolute_query_eq_aux s.length s (Nat.le_refl _)

theorem pct_valid_not_mem_aux {allowed : Char → Bool} {x : Char} (hx : allowed x = false)
    (hx1 : x ≠ '%') (hx2 : is_hex_digit x = false) (n : Nat) : ∀ (s : Bytes), s.length ≤ n →
    pct_valid allowed s = true → x ∉ s := by
  induction n with
  | zero =>
    intro s hs _
    have : s = [] := List.length_eq_zero.1 (by omega)
    subst this
    simp
  | succ n ih =>
    intro s hs h
    match s, hs, h with
    | [], _, _ => simp
    | c :: rest, hs, h =>
      rw [pct_valid_cons] at h
      by_cases hc : allowed c = true
      · rw [if_pos hc] at h
        have hne : x ≠ c := by rintro rfl; simp [hx] at hc
        simpa [hne] using ih rest (by simpa using hs) h
      · rw [if_neg hc] at h
        match rest, hs, h with
        | [], _, h => simp at h
        | [_], _, h => simp at h
        | h0 :: h1 :: rest2, hs, h =>
          simp only [Bool.and_eq_true, beq_iff_eq] at h
          obtain ⟨⟨⟨rfl, hh0⟩, hh1⟩, hv⟩ := h
          have := ih rest2 (by simp at hs; omega) hv
          have e0 : x ≠ h0 := by rintro rfl; simp [hx2] at hh0
          have e1 : x ≠ h1 := by rintro rfl; simp [hx2] at hh1
          simp [hx1, e0, e1, this]

theorem pct_valid_not_mem {allowed : Char → Bool} {x : Char} (hx : allowed x = false)
    (hx1 : x ≠ '%') (hx2 : is_hex_digit x = false) {s : Bytes}
    (h : pct_valid allowed s = true) : x ∉ s :=
  pct_valid_not_mem_aux hx hx1 hx2 s.length s (Nat.le_refl _) h

theorem parse_request_target_valid {T : Bytes} (hT : T.head? = some '/')
    (hpath : pct_valid is_absolute_path_char (T.takeWhile (· != '?')) = true)
    (hquery : pct_valid (fun c => is_absolute_path_char c || c == '?')
      ((T.dropWhile (· != '?')).drop 1) = true) :
    ∃ p, pct_decode (T.takeWhile (· != '?')) = some p ∧
      parse_request_target T = some (.origin ⟨p, (T.dropWhile (· != '?')).drop 1⟩) := by
  obtain ⟨p, h1, h2⟩ := pct_loops_agree hpath
  refine ⟨p, h2, ?_⟩
  unfold parse_request_target
  rw [if_pos hT]
  cases hf : find_char '?' T with
  | none =>
    obtain ⟨e1, e2⟩ := find_char_none hf
    rw [e1] at h1
    simp [h1, e2]
  | some pos =>
    obtain ⟨e1, e2⟩ := find_char_some hf
    simp only [e1, h1, e2, is_valid_absolute_query_eq, hquery]
    rfl

theorem parse_request_line_valid (m : method_t) {T V : Bytes} (hT : T.head? = some '/')
    (hpath : pct_valid is_absolute_path_char (T.takeWhile (· != '?')) = true)
    (hquery : pct_valid (fun c => is_absolute_path_char c || c == '?')
      ((T.dropWhile (· != '?')).drop 1) = true)
    (hV : SP ∉ V) :
    ∃ p, pct_decode (T.takeWhile (· != '?')) = some p ∧
      parse_request_line (m.name ++ SP :: (T ++ SP :: V)) =
        some ⟨m, .origin ⟨p, (T.dropWhile (· != '?')).drop 1⟩, V⟩ := by
  obtain ⟨p, h1, h2⟩ := parse_request_target_valid hT hpath hquery
  refine ⟨p, h1, ?_⟩
  have hTsp : SP ∉ T := by
    intro hm
    rw [← List.takeWhile_append_dropWhile (· != '?') T] at hm
    rcases List.mem_append.1 hm with hm | hm
    · exact pct_valid_not_mem (x := SP) (by decide) (by decide) (by decide) hpath hm
    · cases hd : T.dropWhile (· != '?') with
      | nil => simp [hd] at hm
      | cons q rest =>
        have hq : q = '?' := by
          have := List.head_dropWhile_not (· != '?') T (by simp [hd])
          simpa [hd] using this
        rw [hd] at hm hquery
        simp only [List.drop_succ_cons, List.drop_zero] at hquery
        rcases List.mem_cons.1 hm with e | hm
        · rw [hq] at e; revert e; decide
        · exact pct_valid_not_mem (x := SP) (by decide) (by decide) (by decide) hquery hm
  unfold parse_request_line
  rw [split_string_view_append (method_name_no_SP m), split_string_view_append hTsp,
    split_string_view_not_mem hV]
  simp [enum_from_string_name, h2]

theorem parse_body_line (self : req_msg) (data : Bytes) (chunks : List Bytes) :
    (parse_body self data chunks).self.line = self.line := by
  unfold parse_body
  split
  · rfl
  · split
    · rfl
    · split
      · split <;> rfl
      · rfl

theorem header_loop_line {f : Nat} {self : req_msg} {data lb : Bytes} {chunks : List Bytes}
    {ex : loop_exit} (h : header_loop f self data lb chunks = some ex) :
    ex.finish.self.line = self.line := by
  induction f generalizing self data lb chunks with
  | zero => simp [header_loop] at h
  | succ n ih =>
    rw [header_loop] at h
    split at h
    · cases h; exact parse_body_line _ _ _
    · split at h
      · cases h; rfl
      · split at h
        · cases h; rfl
        · have := ih h
          exact this

/-! ## Rejected lines -/

theorem parse_token_eq_takeWhile (str : Bytes) (p : Char → Bool) :
    parse_token str p = str.takeWhile p := by
  unfold parse_token
  induction str with
  | nil => rfl
  | cons c rest ih =>
    by_cases hc : p c = true
    · simp [parse_token_end, hc, ih]
    · simp [parse_token_end, hc]

theorem drop_length_takeWhile (str : Bytes) (p : Char → Bool) :
    str.drop (str.takeWhile p).length = str.dropWhile p := by
  induction str with
  | nil => rfl
  | cons c rest ih =>
    by_cases hc : p c = true
    · simp [hc, ih]
    · simp [hc]

theorem parse_header_line_malformed {line : Bytes}
    (hbad : line.takeWhile is_tchar = [] ∨ (line.dropWhile is_tchar).head? ≠ some ':' ∨
      ((line.dropWhile is_tchar).drop 1).takeWhile (fun c => is_tchar c || c == ' ') = []) :
    parse_header_line line = none := by
  unfold parse_header_line
  simp only [parse_token_eq_takeWhile, drop_length_takeWhile]
  split
  · rfl
  · rename_i h1
    split
    · rfl
    · rename_i h2
      split
      · rfl
      · rename_i h3
        exfalso
        rcases hbad with h | h | h
        · simp [h] at h1
        · cases hd : List.dropWhile is_tchar line with
          | nil => simp [hd] at h2
          | cons x xs =>
            rw [hd] at h h2
            simp only [List.isEmpty_cons, List.head?_cons, Bool.false_or, bne_iff_ne, ne_eq,
              Decidable.not_not] at h2
            exact h h2
        · rw [h] at h3; exact h3 rfl

theorem split_string_view_length (s : Bytes) (d : Char) :
    (split_string_view s d).length = s.count d + 1 := by
  induction s with
  | nil => simp [split_string_view]
  | cons c rest ih =>
    rw [split_string_view]
    by_cases hc : c = d
    · subst hc; simp [ih]
    · have hne : (c == d) = false := by simpa using hc
      rw [if_neg hc, List.count_cons, hne]
      cases hs : split_string_view rest d with
      | nil => exact absurd hs (split_string_view_ne_nil rest d)
      | cons p ps =>
        rw [hs] at ih
        simpa using ih

theorem parse_request_line_arity {line : Bytes} (h : (split_string_view line SP).length ≠ 3) :
    parse_request_line line = none := by
  unfold parse_request_line
  dsimp only
  split
  · rename_i heq; simp [heq] at h
  · rfl

theorem enum_from_string_unknown {s : Bytes}
    (h : s ∉ ["GET".toList, "HEAD".toList, "POST".toList, "PUT".toList, "DELETE".toList,
      "OPTIONS".toList, "TRACE".toList, "CONNECT".toList, "PATCH".toList]) :
    enum_from_string s = none := by
  unfold enum_from_string
  rw [List.find?_eq_none]
  intro m _
  simp only [List.mem_cons, List.mem_singleton, not_or, List.not_mem_nil, or_false] at h
  cases m <;> simp [method_t.name] <;> tauto

theorem parse_request_line_method {line : Bytes}
    (h : ∀ p0, (split_string_view line SP).head? = some p0 →
      p0 ∉ ["GET".toList, "HEAD".toList, "POST".toList, "PUT".toList, "DELETE".toList,
        "OPTIONS".toList, "TRACE".toList, "CONNECT".toList, "PATCH".toList]) :
    parse_request_line line = none := by
  unfold parse_request_line
  dsimp only
  split
  · rename_i p0 p1 p2 heq
    rw [enum_from_string_unknown (h p0 (by simp [heq]))]
  · rfl

theorem parser_of_bad_request_line {self : req_msg} {data line data' lb : Bytes}
    {chunks chunks' : List Bytes} (hline : get_line data [] chunks = some (line, data', lb, chunks'))
    (hbad : parse_request_line line = none) :
    parser self (data :: chunks) = some ⟨.returned none, self, chunks'⟩ := by
  have : parse_head 0 self (data :: chunks) = some (.failed self chunks') := by
    simp [parse_head, hline, hbad]
  exact parser_of_head this

theorem header_loop_of_bad_line {self : req_msg} {data line data' lb : Bytes}
    {chunks chunks' : List Bytes} (hnb : starts_with_CRLF data = false)
    (hline : get_line data [] chunks = some (line, data', lb, chunks'))
    (hbad : parse_header_line line = none) :
    header_loop 1 self data [] chunks = some (.failed self chunks') := by
  rw [header_loop]
  simp [hnb, hline, hbad]

theorem get_line_of_no_CR {line : Bytes} (h : ∀ c ∈ line, c ≠ CR) (rest : Bytes)
    (chunks : List Bytes) :
    get_line (line ++ CR :: LF :: rest) [] chunks = some (line, rest, [], chunks) := by
  rw [get_line, find_CRLF_append_of_no_CR h rest]
  simp only [List.take_left, Option.some.injEq, Prod.mk.injEq, true_and, and_true]
  rw [List.drop_append]
  rfl

/-! ## Percent-encoding -/

theorem hex_char_is_hex_digit : ∀ n < 16, is_hex_digit (hex_char n) = true := by decide

theorem hex_to_int_hex_char : ∀ n < 16, hex_to_int (hex_char n) = n := by decide

set_option maxRecDepth 8000 in
theorem shift_or_byte : ∀ n < 256, (((n / 16) <<< 4) ||| (n % 16)) % 256 = n := by decide

theorem pct_decode_hex_char (n : Nat) (h : n < 256) :
    pct_decode_hex (hex_char (n / 16)) (hex_char (n % 16)) = Char.ofNat n := by
  unfold pct_decode_hex
  rw [hex_to_int_hex_char _ (Nat.div_lt_of_lt_mul (by omega : n < 16 * 16)),
    hex_to_int_hex_char _ (Nat.mod_lt _ (by omega)), shift_or_byte n h]

theorem pct_encode_cons (keep : Char → Bool) (c : Char) (rest : Bytes) :
    pct_encode keep (c :: rest) =
      (if keep c then [c] else ['%', hex_char (c.toNat / 16), hex_char (c.toNat % 16)]) ++
        pct_encode keep rest := rfl

theorem pct_decode_encode (keep : Char → Bool) (hk : keep '%' = false) {s : Bytes}
    (hs : ∀ c ∈ s, c.toNat < 256) (res : Bytes) :
    pct_decode_loop res (pct_encode keep s) = some (res ++ s) := by
  induction s generalizing res with
  | nil => simp [pct_encode, pct_decode_loop]
  | cons c rest ih =>
    have hc := hs c (by simp)
    have ih' := fun r => ih (fun x hx => hs x (by simp [hx])) r
    rw [pct_encode_cons]
    by_cases hkc : keep c = true
    · have hne : c ≠ '%' := by rintro rfl; simp [hk] at hkc
      simp only [hkc, if_true, List.singleton_append]
      rw [pct_decode_loop_cons, if_neg hne, ih']
      simp
    · simp only [hkc, Bool.false_eq_true, if_false, List.cons_append, List.nil_append]
      rw [pct_decode_loop_cons, if_pos rfl]
      simp only [hex_char_is_hex_digit _ (Nat.div_lt_of_lt_mul (by omega : c.toNat < 16 * 16)),
        hex_char_is_hex_digit _ (Nat.mod_lt _ (by omega)), Bool.and_self, if_true]
      rw [ih', pct_decode_hex_char _ hc, Char.ofNat_toNat]
      simp

theorem pct_valid_encode {keep : Char → Bool} (hk : keep '%' = false) {s : Bytes}
    (hs : ∀ c ∈ s, c.toNat < 256) : pct_valid keep (pct_encode keep s) = true := by
  induction s with
  | nil => rfl
  | cons c rest ih =>
    have hc := hs c (by simp)
    have ih' := ih (fun x hx => hs x (by simp [hx]))
    rw [pct_encode_cons]
    by_cases hkc : keep c = true
    · simp only [hkc, if_true, List.singleton_append]
      rw [pct_valid_cons, if_pos hkc, ih']
    · simp only [hkc, Bool.false_eq_true, if_false, List.cons_append, List.nil_append]
      · rw [pct_valid_cons, if_neg (by simp [hk])]
        simp [hex_char_is_hex_digit _ (Nat.div_lt_of_lt_mul (by omega : c.toNat < 16 * 16)),
          hex_char_is_hex_digit _ (Nat.mod_lt _ (by omega)), ih']

/-! ## Trimming -/

theorem trim_start_eq (s : Bytes) : trim_start s = (s.takeWhile is_blank).length := by
  induction s with
  | nil => rfl
  | cons c rest ih =>
    rw [trim_start]
    by_cases hc : c = SP ∨ c = HTAB
    · have : is_blank c = true := by simpa [is_blank] using hc
      rw [if_pos hc, List.takeWhile_cons_of_pos this, ih]; rfl
    · have : ¬ is_blank c = true := by simpa [is_blank] using hc
      rw [if_neg hc, List.takeWhile_cons_of_neg this]; rfl

theorem trim_end_spec (s : Bytes) (start : Nat) : ∀ e, start ≤ e → e ≤ s.length →
    start ≤ trim_end s start e ∧ trim_end s start e ≤ e ∧
      (s.take (trim_end s start e)).drop start = ((s.take e).drop start).rdropWhile is_blank := by
  intro e
  induction e with
  | zero =>
    intro h0 _
    have : start = 0 := by omega
    subst this
    simp [trim_end]
  | succ e ih =>
    intro h1 h2
    rw [trim_end]
    by_cases hgt : e + 1 > start
    · have hlt : e < s.length := by omega
      have htake : s.take (e + 1) = s.take e ++ [s[e]] := by
        rw [List.take_succ, List.getElem?_eq_getElem hlt]; rfl
      have hdrop : (s.take (e + 1)).drop start = (s.take e).drop start ++ [s[e]] := by
        rw [htake, List.drop_append_of_le_length (by simp; omega)]
      have hget : s.getD e SP = s[e] := List.getD_eq_getElem _ _ hlt
      by_cases hb : s.getD e SP = SP ∨ s.getD e SP = HTAB
      · have hbl : is_blank s[e] = true := by rw [hget] at hb; simpa [is_blank] using hb
        rw [if_pos ⟨hgt, hb⟩]
        obtain ⟨i1, i2, i3⟩ := ih (by omega) (by omega)
        refine ⟨i1, by omega, ?_⟩
        rw [i3, hdrop, List.rdropWhile_concat_pos _ _ _ hbl]
      · have hbl : ¬ is_blank s[e] = true := by rw [hget] at hb; simpa [is_blank] using hb
        rw [if_neg (by tauto)]
        refine ⟨h1, Nat.le_refl _, ?_⟩
        rw [hdrop, List.rdropWhile_concat_neg _ _ _ hbl]
    · have he : e + 1 = start := by omega
      rw [if_neg (by tauto)]
      refine ⟨h1, Nat.le_refl _, ?_⟩
      have : (s.take (e + 1)).drop start = [] := by
        apply List.drop_eq_nil_of_le
        simp; omega
      rw [this, List.rdropWhile_nil]

/-- What `trim_string_view` computes: the leading and then the trailing blanks are removed. -/
theorem trim_string_view_eq (s : Bytes) :
    trim_string_view s = (s.dropWhile is_blank).rdropWhile is_blank := by
  unfold trim_string_view
  have hs : trim_start s ≤ s.length := by
    rw [trim_start_eq]
    exact (List.takeWhile_sublist _).length_le
  obtain ⟨_, _, h3⟩ := trim_end_spec s (trim_start s) s.length hs (Nat.le_refl _)
  simp only
  rw [← List.drop_take, h3, List.take_length, trim_start_eq, drop_length_takeWhile]

theorem trim_string_view_of_plain {s : Bytes} (h1 : ∀ c, s.head? = some c → is_blank c = false)
    (h2 : ∀ c, s.getLast? = some c → is_blank c = false) : trim_string_view s = s := by
  rw [trim_string_view_eq]
  have hd : s.dropWhile is_blank = s := by
    cases s with
    | nil => rfl
    | cons c rest => exact List.dropWhile_cons_of_neg (by simp [h1 c rfl])
  rw [hd, List.rdropWhile_eq_self_iff]
  intro hl
  have := h2 (s.getLast hl) (List.getLast?_eq_getLast _ hl)
  simp [this]

/-! ## Parsing a serialised request -/

theorem is_tchar_ne {c x : Char} (hx : is_tchar x = false) (h : is_tchar c = true) : c ≠ x := by
  rintro rfl; rw [hx] at h; exact Bool.noConfusion h

theorem parse_header_line_serialized {name value : Bytes} (hn : name ≠ [])
    (hnt : ∀ c ∈ name, is_tchar c = true) (hv : ∀ c ∈ value, is_tchar c = true ∨ c = SP) :
    parse_header_line (name ++ ':' :: SP :: value) = some (name, SP :: value) := by
  have hk : (name ++ ':' :: SP :: value).takeWhile is_tchar = name := by
    rw [List.takeWhile_append_of_pos hnt, List.takeWhile_cons_of_neg (by decide)]
    simp
  have hval : (SP :: value).takeWhile (fun c => is_tchar c || c == ' ') = SP :: value := by
    rw [List.takeWhile_eq_self_iff]
    intro c hc
    rcases List.mem_cons.1 hc with rfl | hc
    · decide
    · rcases hv c hc with h | h
      · simp [h]
      · subst h; decide
  unfold parse_header_line
  simp only [parse_token_eq_takeWhile, hk, List.drop_left]
  have hne : name.isEmpty = false := by cases name <;> simp_all
  simp only [hne, Bool.false_eq_true, if_false, List.isEmpty_cons, List.head?_cons, bne_self_eq_false,
    Bool.or_self, List.drop_succ_cons, List.drop_zero, hval]

theorem header_loop_serialized (hs : header_t)
    (hnames : ∀ e ∈ hs, e.1 ≠ [] ∧ ∀ c ∈ e.1, is_tchar c = true)
    (hvalues : ∀ e ∈ hs, (∀ c ∈ e.2, is_tchar c = true ∨ c = SP) ∧
      e.2.head? ≠ some SP ∧ e.2.getLast? ≠ some SP)
    (self : req_msg) (rest : Bytes) :
    header_loop (hs.length + 1) self ((hs.map serialize_header).flatten ++ CRLF ++ rest) [] [] =
      some (.broke { self with header := hs.foldl (fun h e => h.emplace e.1 e.2) self.header }
        rest []) := by
  induction hs generalizing self with
  | nil =>
    rw [header_loop]
    simp [starts_with_CRLF]
  | cons e hs ih =>
    obtain ⟨hn, hnt⟩ := hnames e (by simp)
    obtain ⟨hv, hv1, hv2⟩ := hvalues e (by simp)
    have ih' := ih (fun x hx => hnames x (by simp [hx])) (fun x hx => hvalues x (by simp [hx]))
    have hdata : ((e :: hs).map serialize_header).flatten ++ CRLF ++ rest =
        (e.1 ++ ':' :: SP :: e.2) ++ CR :: LF ::
          ((hs.map serialize_header).flatten ++ CRLF ++ rest) := by
      simp [serialize_header]
    have hstart : starts_with_CRLF
        ((e.1 ++ ':' :: SP :: e.2) ++ CR :: LF ::
          ((hs.map serialize_header).flatten ++ CRLF ++ rest)) = false := by
      cases h1 : e.1 with
      | nil => exact absurd h1 hn
      | cons c cs =>
        have hc : c ≠ CR := is_tchar_ne (by decide) (hnt c (by simp [h1]))
        cases cs <;> simp [starts_with_CRLF, hc]
    have hcr : ∀ c ∈ e.1 ++ ':' :: SP :: e.2, c ≠ CR := by
      intro c hc
      rcases List.mem_append.1 hc with h | h
      · exact is_tchar_ne (by decide) (hnt c h)
      · rcases List.mem_cons.1 h with h | h
        · rw [h]; decide
        · rcases List.mem_cons.1 h with h | h
          · rw [h]; decide
          · rcases hv c h with h' | h'
            · exact is_tchar_ne (by decide) h'
            · rw [h']; decide
    have hkey : trim_string_view e.1 = e.1 := by
      apply trim_string_view_of_plain
      · intro c hc
        have : is_tchar c = true := hnt c (List.mem_of_mem_head? hc)
        have h1 : c ≠ SP := is_tchar_ne (by decide) this
        have h2 : c ≠ HTAB := is_tchar_ne (by decide) this
        simp [is_blank, h1, h2]
      · intro c hc
        have : is_tchar c = true := hnt c (List.mem_of_mem_getLast? hc)
        have h1 : c ≠ SP := is_tchar_ne (by decide) this
        have h2 : c ≠ HTAB := is_tchar_ne (by decide) this
        simp [is_blank, h1, h2]
    have hblank : ∀ c ∈ e.2, c ≠ SP → is_blank c = false := by
      intro c hc hsp
      rcases hv c hc with h | h
      · have h2 : c ≠ HTAB := is_tchar_ne (by decide) h
        simp [is_blank, hsp, h2]
      · exact absurd h hsp
    have hval : trim_string_view (SP :: e.2) = e.2 := by
      rw [trim_string_view_eq, List.dropWhile_cons_of_pos (by decide)]
      rw [← trim_string_view_eq]
      apply trim_string_view_of_plain
      · intro c hc
        exact hblank c (List.mem_of_mem_head? hc) (by rintro rfl; exact hv1 hc)
      · intro c hc
        exact hblank c (List.mem_of_mem_getLast? hc) (by rintro rfl; exact hv2 hc)
    rw [hdata, List.length_cons, header_loop, hstart]
    simp only [Bool.false_eq_true, if_false, get_line_of_no_CR hcr,
      parse_header_line_serialized hn hnt hv, hkey, hval]
    rw [ih']
    rfl

theorem foldl_emplace_distinct (hs acc : header_t)
    (h : (acc ++ hs).Pairwise (fun a b => ci_equal a.1 b.1 = false)) :
    hs.foldl (fun h e => h.emplace e.1 e.2) acc = acc ++ hs := by
  induction hs generalizing acc with
  | nil => simp
  | cons e hs ih =>
    have hnew : acc.emplace e.1 e.2 = acc ++ [e] := by
      unfold header_t.emplace
      rw [if_neg]
      rw [List.pairwise_append] at h
      simp only [List.any_eq_true, not_exists, not_and, Bool.not_eq_true]
      intro a ha
      exact h.2.2 a ha e (by simp)
    rw [List.foldl_cons, hnew, ih (acc ++ [e]) (by simpa using h)]
    simp

theorem pct_encode_not_mem (keep : Char → Bool) (x : Char) (hx : keep x = false)
    (hx1 : x ≠ '%') (hx2 : is_hex_digit x = false) (s : Bytes) (hs : ∀ c ∈ s, c.toNat < 256) :
    x ∉ pct_encode keep s := by
  induction s with
  | nil => simp [pct_encode]
  | cons c rest ih =>
    have hc := hs c (by simp)
    have ih' := ih (fun y hy => hs y (by simp [hy]))
    rw [pct_encode_cons]
    by_cases hkc : keep c = true
    · have hne : x ≠ c := by rintro rfl; simp [hx] at hkc
      simp [hkc, hne, ih']
    · have e0 : x ≠ hex_char (c.toNat / 16) := by
        rintro rfl
        rw [hex_char_is_hex_digit _ (Nat.div_lt_of_lt_mul (by omega : c.toNat < 16 * 16))] at hx2
        exact Bool.noConfusion hx2
      have e1 : x ≠ hex_char (c.toNat % 16) := by
        rintro rfl
        rw [hex_char_is_hex_digit _ (Nat.mod_lt _ (by omega))] at hx2
        exact Bool.noConfusion hx2
      simp [hkc, hx1, e0, e1, ih']

theorem serialize_target_takeWhile (o : origin_form) (hb : ∀ c ∈ o.path, c.toNat < 256) :
    (serialize_target o).takeWhile (· != '?') = pct_encode is_absolute_path_char o.path ∧
      ((serialize_target o).dropWhile (· != '?')).drop 1 = o.query := by
  have hq : ∀ c ∈ pct_encode is_absolute_path_char o.path, (c != '?') = true := by
    intro c hc
    have := pct_encode_not_mem is_absolute_path_char '?' (by decide)
      (by decide) (by decide) o.path hb
    simp only [bne_iff_ne, ne_eq]
    rintro rfl
    exact this hc
  unfold serialize_target
  by_cases hqe : o.query = []
  · simp only [hqe, if_true, List.append_nil]
    rw [List.takeWhile_eq_self_iff.2 hq, List.dropWhile_eq_nil_iff.2 hq]
    simp
  · simp only [hqe, if_false]
    rw [List.takeWhile_append_of_pos hq, List.dropWhile_append_of_pos hq]
    simp

theorem serialize_target_head (o : origin_form) (h : o.path.head? = some '/') :
    (serialize_target o).head? = some '/' := by
  unfold serialize_target
  cases hp : o.path with
  | nil => simp [hp] at h
  | cons c rest =>
    simp only [hp, List.head?_cons, Option.some.injEq] at h
    subst h
    rw [pct_encode_cons, if_pos (by decide)]
    rfl

theorem parse_request_line_serialized (m : method_t) (o : origin_form) (version : Bytes)
    (h1 : o.path.head? = some '/') (hb : ∀ c ∈ o.path, c.toNat < 256)
    (hq : pct_valid (fun c => is_absolute_path_char c || c == '?') o.query = true)
    (hv : SP ∉ version) :
    parse_request_line (m.name ++ SP :: (serialize_target o ++ SP :: version)) =
      some ⟨m, .origin o, version⟩ := by
  obtain ⟨e1, e2⟩ := serialize_target_takeWhile o hb
  obtain ⟨p, hp, hl⟩ := parse_request_line_valid m (serialize_target_head o h1)
    (by rw [e1]; exact pct_valid_encode (by decide) hb) (by rw [e2]; exact hq) hv
  rw [e1] at hp
  have := pct_decode_encode is_absolute_path_char (by decide) hb []
  rw [pct_decode, this] at hp
  simp only [List.nil_append, Option.some.injEq] at hp
  rw [hl, e2, ← hp]

theorem parse_body_serialized (self : req_msg) (body : Option Bytes) (hb : self.body = none)
    (h : match self.header.find "Content-Length".toList with
      | none => body = none
      | some value =>
        ∃ n, stoi value = some n ∧
          ((n = 0 ∧ body = none) ∨ (0 < n ∧ ∃ b, body = some b ∧ b.length = n))) :
    parse_body self (body.getD []) [] = ⟨.returned (some []), { self with body := body }, []⟩ := by
  obtain ⟨l, hd, b0⟩ := self
  simp only at hb h
  subst hb
  unfold parse_body
  cases hf : header_t.find hd "Content-Length".toList with
  | none =>
    rw [hf] at h
    simp only at h
    subst h
    rfl
  | some value =>
    rw [hf] at h
    obtain ⟨n, hn, h⟩ := h
    simp only [hn]
    rcases h with ⟨h0, hbody⟩ | ⟨hpos, b, hbody, hlen⟩
    · subst h0 hbody
      rfl
    · subst hbody
      have : body_loop n [] b [] = some ([] ++ (([] : List Bytes).flatten ++ b).take (n - 0),
          b.drop (n - 0 - 0), []) :=
        body_loop_split [] (show b :: [] = [] ++ b :: [] from rfl) (by simpa using hpos)
          (by simp [hlen])
      simp only [Option.getD_some, hpos, if_true, this]
      simp [← hlen]

/-! ## Acceptance of origin-form targets -/

theorem parse_absolute_path_loop_isSome_aux (n : Nat) : ∀ (s : Bytes), s.length ≤ n →
    ∀ res : Bytes,
    (parse_absolute_path_loop res s).isSome = pct_valid is_absolute_path_char s := by
  induction n with
  | zero =>
    intro s hs res
    have : s = [] := List.length_eq_zero.1 (by omega)
    subst this
    rfl
  | succ n ih =>
    intro s hs res
    match s, hs with
    | [], _ => rfl
    | c :: rest, hs =>
      rw [parse_absolute_path_loop_cons, pct_valid_cons]
      by_cases hc : is_absolute_path_char c = true
      · simp only [hc, Bool.not_true, Bool.false_eq_true, if_false, if_true]
        exact ih rest (by simpa using hs) _
      · simp only [hc, Bool.not_false, if_true, Bool.false_eq_true, if_false]
        match rest, hs with
        | [], _ => rfl
        | [_], _ => rfl
        | h0 :: h1 :: rest2, hs =>
          have := ih rest2 (by simp at hs; omega) (res ++ [pct_decode_hex h0 h1])
          change (if (decide (c = '%') && is_hex_digit h0 && is_hex_digit h1) = true then
              parse_absolute_path_loop (res ++ [pct_decode_hex h0 h1]) rest2 else none).isSome =
            (decide (c = '%') && is_hex_digit h0 && is_hex_digit h1 && pct_valid _ rest2)
          cases (decide (c = '%') && is_hex_digit h0 && is_hex_digit h1)
          · simp
          · simpa using this

theorem parse_absolute_path_isSome (s : Bytes) :
    (parse_absolute_path s).isSome = pct_valid is_absolute_path_char s :=
  parse_absolute_path_loop_isSome_aux s.length s (Nat.le_refl _) []

theorem parse_request_target_isSome {T : Bytes} (hT : T.head? = some '/') :
    (parse_request_target T).isSome =
      (pct_valid is_absolute_path_char (T.takeWhile (· != '?')) &&
        pct_valid (fun c => is_absolute_path_char c || c == '?')
          ((T.dropWhile (· != '?')).drop 1)) := by
  unfold parse_request_target
  rw [if_pos hT]
  cases hf : find_char '?' T with
  | none =>
    obtain ⟨e1, e2⟩ := find_char_none hf
    rw [e1, e2]
    have := parse_absolute_path_isSome T
    cases hp : parse_absolute_path T with
    | none => rw [hp] at this; simp [← this, pct_valid]
    | some p => rw [hp] at this; simp [← this, pct_valid]
  | some pos =>
    obtain ⟨e1, e2⟩ := find_char_some hf
    simp only [e1, e2, is_valid_absolute_query_eq]
    have := parse_absolute_path_isSome (T.takeWhile (· != '?'))
    cases hp : parse_absolute_path (T.takeWhile (· != '?')) with
    | none => rw [hp] at this; simp [← this]
    | some p =>
      rw [hp] at this
      rw [← this]
      cases pct_valid (fun c => is_absolute_path_char c || c == '?')
        ((T.dropWhile (· != '?')).drop 1) <;> simp

theorem pct_valid_percent_followed_aux {allowed : Char → Bool} (hk : allowed '%' = false)
    (n : Nat) : ∀ (s : Bytes), s.length ≤ n → pct_valid allowed s = true →
    ∀ pre post : Bytes, s = pre ++ '%' :: post → percent_followed post = true := by
  induction n with
  | zero =>
    intro s hs _ pre post e
    have : s = [] := List.length_eq_zero.1 (by omega)
    subst this
    simp at e
  | succ n ih =>
    intro s hs h pre post e
    match s, hs, h, e with
    | [], _, _, e => simp at e
    | c :: rest, hs, h, e =>
      rw [pct_valid_cons] at h
      by_cases hc : allowed c = true
      · rw [if_pos hc] at h
        match pre, e with
        | [], e =>
          simp only [List.nil_append, List.cons.injEq] at e
          rw [e.1, hk] at hc
          exact Bool.noConfusion hc
        | p :: pre', e =>
          simp only [List.cons_append, List.cons.injEq] at e
          exact ih rest (by simpa using hs) h pre' post e.2
      · rw [if_neg hc] at h
        match rest, hs, h, e with
        | [], _, h, _ => simp at h
        | [_], _, h, _ => simp at h
        | h0 :: h1 :: rest2, hs, h, e =>
          simp only [Bool.and_eq_true, beq_iff_eq] at h
          obtain ⟨⟨⟨_, hh0⟩, hh1⟩, hv⟩ := h
          have n0 : is_hex_digit '%' = false := by decide
          match pre, e with
          | [], e =>
            simp only [List.nil_append, List.cons.injEq] at e
            rw [← e.2]
            simp [percent_followed, hh0, hh1]
          | [_], e =>
            simp only [List.cons_append, List.nil_append, List.cons.injEq] at e
            rw [e.2.1, n0] at hh0
            exact Bool.noConfusion hh0
          | [_, _], e =>
            simp only [List.cons_append, List.nil_append, List.cons.injEq] at e
            rw [e.2.2.1, n0] at hh1
            exact Bool.noConfusion hh1
          | _ :: _ :: _ :: pre', e =>
            simp only [List.cons_append, List.cons.injEq] at e
            exact ih rest2 (by simp at hs; omega) hv pre' post e.2.2.2

theorem pct_valid_of_bad_percent {allowed : Char → Bool} (hk : allowed '%' = false) {s : Bytes}
    (h : has_bad_percent s) : pct_valid allowed s = false := by
  obtain ⟨pre, post, e, hbad⟩ := h
  cases hv : pct_valid allowed s with
  | false => rfl
  | true =>
    have := pct_valid_percent_followed_aux hk s.length s (Nat.le_refl _) hv pre post e
    rw [hbad] at this
    exact Bool.noConfusion this

theorem parse_request_line_bad_target {line T : Bytes}
    (h1 : (split_string_view line SP)[1]? = some T) (hT : parse_request_target T = none) :
    parse_request_line line = none := by
  unfold parse_request_line
  dsimp only
  split
  · rename_i p0 p1 p2 heq
    rw [heq] at h1
    simp only [List.getElem?_cons_succ, List.getElem?_cons_zero, Option.some.injEq] at h1
    subst h1
    rw [hT]
    cases enum_from_string p0 <;> rfl
  · rfl

/-! ## The body stage -/

theorem at_header_loop_body {self0 self : req_msg} {chunks0 chunks : List Bytes} {data : Bytes}
    (h : at_header_loop self0 chunks0 self data chunks) : self.body = self0.body := by
  induction h with
  | request_line _ _ _ _ _ _ _ _ _ _ => rfl
  | header_line _ _ _ _ _ _ _ _ _ _ _ _ _ ih => exact ih

theorem stoi_of_not_digits {value : Bytes}
    (hbad : value = [] ∨ ∃ c ∈ value, c.isDigit = false) : stoi value = none := by
  unfold stoi
  rw [if_neg]
  rintro ⟨h1, h2⟩
  rcases hbad with h | ⟨c, hc, hd⟩
  · exact h1 h
  · rw [List.all_eq_true] at h2
    rw [h2 c hc] at hd
    exact Bool.noConfusion hd

theorem parser_at_blank_line {self0 self : req_msg} {chunks0 chunks : List Bytes} {data : Bytes}
    (hat : at_header_loop self0 chunks0 self data chunks)
    (hblank : starts_with_CRLF data = true) :
    parser self0 chunks0 = some (parse_body self (data.drop 2) chunks) := by
  have hl : header_loop 1 self data [] chunks = some (.broke self (data.drop 2) chunks) := by
    rw [header_loop]; simp [hblank]
  rw [parser_of_at_header_loop hat hl]
  rfl

/-! ## Percent-decoding of a path -/

theorem hex_to_int_lt (c : Char) : hex_to_int c < 16 := by
  have e0 : '0'.toNat = 48 := rfl
  have e9 : '9'.toNat = 57 := rfl
  have ea : 'a'.toNat = 97 := rfl
  have ef : 'f'.toNat = 102 := rfl
  have eA : 'A'.toNat = 65 := rfl
  have eF : 'F'.toNat = 70 := rfl
  have le_toNat : ∀ a b : Char, a ≤ b → a.toNat ≤ b.toNat := fun a b h => h
  unfold hex_to_int
  split
  · rename_i h
    simp only [Bool.and_eq_true, decide_eq_true_eq] at h
    have := le_toNat _ _ h.2
    omega
  · split
    · rename_i h
      simp only [Bool.and_eq_true, decide_eq_true_eq] at h
      have := le_toNat _ _ h.2
      have := le_toNat _ _ h.1
      omega
    · split
      · rename_i h
        simp only [Bool.and_eq_true, decide_eq_true_eq] at h
        have := le_toNat _ _ h.2
        have := le_toNat _ _ h.1
        omega
      · omega

theorem shift_or_nibbles : ∀ a < 16, ∀ b < 16, ((a <<< 4) ||| b) % 256 = 16 * a + b := by
  decide

theorem pct_decode_hex_eq (h0 h1 : Char) :
    pct_decode_hex h0 h1 = Char.ofNat (16 * hex_to_int h0 + hex_to_int h1) := by
  unfold pct_decode_hex
  rw [shift_or_nibbles _ (hex_to_int_lt h0) _ (hex_to_int_lt h1)]

theorem pct_replace_cons (c : Char) (rest : Bytes) :
    pct_replace (c :: rest) =
      if c = '%' then
        match rest with
        | x :: y :: rest2 => Char.ofNat (16 * hex_to_int x + hex_to_int y) :: pct_replace rest2
        | _ => c :: rest
      else c :: pct_replace rest := by
  rw [pct_replace.eq_def]; rfl

theorem pct_triplets_cons (c : Char) (rest : Bytes) :
    pct_triplets (c :: rest) =
      if c = '%' then
        match rest with
        | _ :: _ :: rest2 => pct_triplets rest2 + 1
        | _ => 0
      else pct_triplets rest := by
  rw [pct_triplets.eq_def]; rfl

theorem parse_absolute_path_loop_valid_aux (n : Nat) : ∀ (s : Bytes), s.length ≤ n →
    pct_valid is_absolute_path_char s = true → ∀ res : Bytes,
    parse_absolute_path_loop res s = some (res ++ pct_replace s) ∧
      (pct_replace s).length + 2 * pct_triplets s = s.length := by
  induction n with
  | zero =>
    intro s hs _ res
    have : s = [] := List.length_eq_zero.1 (by omega)
    subst this
    simp [parse_absolute_path_loop, pct_replace, pct_triplets]
  | succ n ih =>
    intro s hs h res
    match s, hs, h with
    | [], _, _ => simp [parse_absolute_path_loop, pct_replace, pct_triplets]
    | c :: rest, hs, h =>
      rw [pct_valid_cons] at h
      by_cases hc : is_absolute_path_char c = true
      · rw [if_pos hc] at h
        have hne : c ≠ '%' := by rintro rfl; revert hc; decide
        obtain ⟨e1, e2⟩ := ih rest (by simpa using hs) h (res ++ [c])
        rw [parse_absolute_path_loop_cons, pct_replace_cons, pct_triplets_cons]
        simp only [hc, Bool.not_true, Bool.false_eq_true, if_false, hne, e1, List.length_cons]
        exact ⟨by simp, by omega⟩
      · rw [if_neg hc] at h
        match rest, hs, h with
        | [], _, h => simp at h
        | [_], _, h => simp at h
        | h0 :: h1 :: rest2, hs, h =>
          simp only [Bool.and_eq_true, beq_iff_eq] at h
          obtain ⟨⟨⟨rfl, hh0⟩, hh1⟩, hv⟩ := h
          obtain ⟨e1, e2⟩ := ih rest2 (by simp at hs; omega) hv (res ++ [pct_decode_hex h0 h1])
          rw [parse_absolute_path_loop_cons, pct_replace_cons, pct_triplets_cons]
          simp only [hc, Bool.not_false, if_true, decide_True, Bool.true_and, hh0, hh1,
            Bool.and_self, e1, List.length_cons, pct_decode_hex_eq]
          refine ⟨?_, by omega⟩
          rw [pct_decode_hex_eq] at e1
          rw [e1]
          simp

/-! ## The first CRLF of the remaining input -/

theorem find_CRLF_cons (c : Char) (rest : Bytes) :
    find_CRLF (c :: rest) =
      if c = CR ∧ rest.head? = some LF then some 0 else (find_CRLF rest).map (· + 1) := by
  rw [find_CRLF]

theorem find_CRLF_append_right {a b : Bytes} {e : Nat} (h : find_CRLF (a ++ b) = some e)
    (hle : a.length ≤ e) : find_CRLF a = none ∧ find_CRLF b = some (e - a.length) := by
  induction a generalizing e with
  | nil => exact ⟨rfl, by simpa using h⟩
  | cons x a ih =>
    rw [List.cons_append, find_CRLF_cons] at h
    simp only [List.length_cons] at hle
    split at h
    · cases h; omega
    · rename_i hc
      cases hf : find_CRLF (a ++ b) with
      | none => simp [hf] at h
      | some e' =>
        simp only [hf, Option.map_some', Option.some.injEq] at h
        subst h
        obtain ⟨h1, h2⟩ := ih hf (by omega)
        refine ⟨?_, by simpa using h2⟩
        rw [find_CRLF_cons, h1, if_neg]
        · rfl
        · rintro ⟨hx, hh⟩
          apply hc
          refine ⟨hx, ?_⟩
          cases a with
          | nil => simp at hh
          | cons y ys => simpa using hh

theorem find_CRLF_append_left {c d : Bytes} {e : Nat} (h : find_CRLF (c ++ d) = some e)
    (hle : e + 2 ≤ c.length) : find_CRLF c = some e := by
  induction c generalizing e with
  | nil => simp at hle
  | cons x c ih =>
    rw [List.cons_append, find_CRLF_cons] at h
    simp only [List.length_cons] at hle
    have hhead : c.head? = (c ++ d).head? := by
      cases c with
      | nil => simp at hle
      | cons y ys => simp
    rw [find_CRLF_cons, hhead]
    split at h
    · rename_i hc
      cases h
      rw [if_pos hc]
    · rename_i hc
      rw [if_neg hc]
      cases hf : find_CRLF (c ++ d) with
      | none => simp [hf] at h
      | some e' =>
        simp only [hf, Option.map_some', Option.some.injEq] at h
        subst h
        rw [ih hf (by omega)]
        rfl

theorem get_line_wait_first_CRLF (lb : Bytes) (pre : List Bytes) :
    ∀ (chunks post : List Bytes) (c : Bytes) (e : Nat), chunks = pre ++ c :: post →
      find_CRLF chunks.flatten = some e → pre.flatten.length ≤ e →
      e + 2 ≤ pre.flatten.length + c.length →
      get_line_wait lb chunks =
        some (lb ++ chunks.flatten.take e, c.drop (e - pre.flatten.length + 2),
          lb ++ chunks.flatten.take e, post) := by
  induction pre generalizing lb with
  | nil =>
    intro chunks post c e hs hf h1 h2
    subst hs
    simp only [List.nil_append, List.flatten_cons, List.flatten_nil, List.length_nil,
      Nat.zero_add, Nat.sub_zero] at hf h1 h2 ⊢
    have hc := find_CRLF_append_left hf h2
    rw [get_line_wait, hc]
    simp only [Option.some.injEq, Prod.mk.injEq, and_true, List.append_cancel_left_eq, true_and]
    rw [List.take_append_of_le_length (by omega)]
    simp
  | cons p ps ih =>
    intro chunks post c e hs hf h1 h2
    subst hs
    simp only [List.cons_append, List.flatten_cons, List.length_append] at hf h1 h2 ⊢
    obtain ⟨hp, hrest⟩ := find_CRLF_append_right hf (by omega)
    rw [get_line_wait, hp]
    simp only
    rw [ih (lb ++ p) (ps ++ c :: post) post c (e - p.length) rfl hrest (by omega) (by omega)]
    have ht : List.take e (p ++ (ps ++ c :: post).flatten) =
        p ++ List.take (e - p.length) (ps ++ c :: post).flatten := by
      rw [List.take_append_eq_append_take, List.take_of_length_le (by omega)]
    rw [ht, Nat.sub_sub]
    simp only [List.append_assoc]

/-! ## The ends of a trimmed string -/

theorem rdropWhile_append_rtakeWhile (p : Char → Bool) (l : Bytes) :
    l.rdropWhile p ++ l.rtakeWhile p = l := by
  simp only [List.rdropWhile, List.rtakeWhile, ← List.reverse_append,
    List.takeWhile_append_dropWhile, List.reverse_reverse]

theorem trim_string_view_head (s : Bytes) (c : Char)
    (h : (trim_string_view s).head? = some c) : is_blank c = false := by
  rw [trim_string_view_eq] at h
  have hd := rdropWhile_append_rtakeWhile is_blank (s.dropWhile is_blank)
  have hnot := List.head?_dropWhile_not is_blank s
  cases ht : (s.dropWhile is_blank).rdropWhile is_blank with
  | nil => rw [ht] at h; simp at h
  | cons x xs =>
    rw [ht] at h hd
    simp only [List.head?_cons, Option.some.injEq] at h
    subst h
    rw [← hd] at hnot
    simpa using hnot

theorem trim_string_view_last (s : Bytes) (c : Char)
    (h : (trim_string_view s).getLast? = some c) : is_blank c = false := by
  rw [trim_string_view_eq] at h
  cases ht : (s.dropWhile is_blank).rdropWhile is_blank with
  | nil => rw [ht] at h; simp at h
  | cons x xs =>
    have hne : (s.dropWhile is_blank).rdropWhile is_blank ≠ [] := by rw [ht]; simp
    have := List.rdropWhile_last_not is_blank (s.dropWhile is_blank) hne
    rw [List.getLast?_eq_getLast _ hne, Option.some.injEq] at h
    rw [← h]
    simpa using this

/-! ## Header lines and the header map -/

theorem ci_equal_refl (k : Bytes) : ci_equal k k = true := by
  simp [ci_equal]

theorem find_emplace_of_absent (h : header_t) (key value : Bytes)
    (habs : h.find key = none) : (h.emplace key value).find key = some value := by
  unfold header_t.find at habs ⊢
  simp only [Option.map_eq_none'] at habs
  have hany : h.any (fun e => ci_equal e.1 key) = false := by
    rw [List.any_eq_false]
    intro e he
    have := List.find?_eq_none.1 habs e he
    simpa using this
  unfold header_t.emplace
  rw [hany]
  simp only [Bool.false_eq_true, if_false, List.find?_append, habs, Option.none_or]
  simp [ci_equal_refl]

theorem find_emplace_of_present (h : header_t) (key value v : Bytes)
    (hpre : h.find key = some v) : h.emplace key value = h := by
  unfold header_t.find at hpre
  cases hf : List.find? (fun e => ci_equal e.1 key) h with
  | none => rw [hf] at hpre; simp at hpre
  | some e =>
    have hmem := List.mem_of_find?_eq_some hf
    have hp := List.find?_some hf
    unfold header_t.emplace
    rw [if_pos]
    rw [List.any_eq_true]
    exact ⟨e, hmem, hp⟩

theorem parse_header_line_longest_token {name rest : Bytes} (hn : name ≠ [])
    (hnt : ∀ c ∈ name, is_tchar c = true)
    (hp : rest.takeWhile (fun c => is_tchar c || c == ' ') ≠ []) :
    parse_header_line (name ++ ':' :: rest) =
      some (name, rest.takeWhile (fun c => is_tchar c || c == ' ')) := by
  have hk : (name ++ ':' :: rest).takeWhile is_tchar = name := by
    rw [List.takeWhile_append_of_pos hnt, List.takeWhile_cons_of_neg (by decide)]
    simp
  unfold parse_header_line
  simp only [parse_token_eq_takeWhile, hk, List.drop_left]
  have hne : name.isEmpty = false := by cases name <;> simp_all
  have hpe : (rest.takeWhile (fun c => is_tchar c || c == ' ')).isEmpty = false := by
    cases hq : rest.takeWhile (fun c => is_tchar c || c == ' ') with
    | nil => exact absurd hq hp
    | cons x xs => rfl
  simp only [hne, Bool.false_eq_true, if_false, List.isEmpty_cons, List.head?_cons,
    bne_self_eq_false, Bool.or_self, List.drop_succ_cons, List.drop_zero, hpe]

theorem trim_string_view_tchars {name : Bytes} (hnt : ∀ c ∈ name, is_tchar c = true) :
    trim_string_view name = name := by
  apply trim_string_view_of_plain
  · intro c hc
    have : is_tchar c = true := hnt c (List.mem_of_mem_head? hc)
    have h1 : c ≠ SP := is_tchar_ne (by decide) this
    have h2 : c ≠ HTAB := is_tchar_ne (by decide) this
    simp [is_blank, h1, h2]
  · intro c hc
    have : is_tchar c = true := hnt c (List.mem_of_mem_getLast? hc)
    have h1 : c ≠ SP := is_tchar_ne (by decide) this
    have h2 : c ≠ HTAB := is_tchar_ne (by decide) this
    simp [is_blank, h1, h2]

/-! ## The two percent decoders -/

theorem pct_loops_equal_aux (n : Nat) : ∀ (s : Bytes), s.length ≤ n →
    (∀ c ∈ s, c ≠ '%' → is_absolute_path_char c = true) → ∀ res : Bytes,
    parse_absolute_path_loop res s = pct_decode_loop res s := by
  induction n with
  | zero =>
    intro s hs _ res
    have : s = [] := List.length_eq_zero.1 (by omega)
    subst this
    rfl
  | succ n ih =>
    intro s hs h res
    match s, hs, h with
    | [], _, _ => rfl
    | c :: rest, hs, h =>
      rw [parse_absolute_path_loop_cons, pct_decode_loop_cons]
      by_cases hc : c = '%'
      · subst hc
        have hna : is_absolute_path_char '%' = false := by decide
        simp only [hna, Bool.not_false, if_true]
        match rest, hs, h with
        | [], _, _ => rfl
        | [_], _, _ => rfl
        | h0 :: h1 :: rest2, hs, h =>
          have := ih rest2 (by simp at hs; omega)
            (fun x hx => h x (by simp [hx])) (res ++ [pct_decode_hex h0 h1])
          simp only [decide_True, Bool.true_and, this]
      · have ha := h c (by simp) hc
        simp only [ha, Bool.not_true, Bool.false_eq_true, if_false, hc]
        exact ih rest (by simpa using hs) (fun x hx => h x (by simp [hx])) _

/-! ## The claims -/

/-- C1. Chunk-boundary invariance fails: the bytes of a minimal GET request are accepted when
fed as one chunk and rejected when the same bytes are cut in front of the blank line (the
header loop tests `data.starts_with(CRLF)` on the exhausted chunk and then reads an empty
header line). -/
theorem chunking_changes_outcome :
    ["GET / HTTP/1.1\r\nHost: x\r\n".toList, "\r\n".toList].flatten =
        "GET / HTTP/1.1\r\nHost: x\r\n\r\n".toList ∧
      parser .fresh ["GET / HTTP/1.1\r\nHost: x\r\n\r\n".toList] =
        some ⟨.returned (some []),
          ⟨some ⟨.GET, .origin ⟨"/".toList, []⟩, "HTTP/1.1".toList⟩,
            [("Host".toList, "x".toList)], none⟩, []⟩ ∧
      parser .fresh ["GET / HTTP/1.1\r\nHost: x\r\n".toList, "\r\n".toList] =
        some ⟨.returned none,
          ⟨some ⟨.GET, .origin ⟨"/".toList, []⟩, "HTTP/1.1".toList⟩,
            [("Host".toList, "x".toList)], none⟩, []⟩ := by
  decide

/-- C2, as stated, fails: a header value made of tchars and spaces that ends with a space does
not come back; the request `GET / HTTP/1.1` with the header `A` of value `v ` is parsed with
the value `v`. -/
theorem round_trip_loses_trailing_space :
    (∀ c ∈ "A".toList, is_tchar c = true) ∧
      (∀ c ∈ "v ".toList, is_tchar c = true ∨ c = SP) ∧
      parser .fresh
          [serialize .GET ⟨"/".toList, []⟩ "HTTP/1.1".toList [("A".toList, "v ".toList)] none] =
        some ⟨.returned (some []),
          ⟨some ⟨.GET, .origin ⟨"/".toList, []⟩, "HTTP/1.1".toList⟩,
            [("A".toList, "v".toList)], none⟩, []⟩ := by
  decide

/-- C2, amended. Round trip: for every request of `in_grammar` (in particular header values
that neither begin nor end with a space, names distinct up to letter case, a numeric
`Content-Length`), feeding its wire serialisation as one chunk to the coroutine run on a fresh
request object succeeds with an empty leftover and fills the object with exactly that
request. -/
theorem parse_serialize_round_trip (m : method_t) (o : origin_form) (version : Bytes)
    (header : header_t) (body : Option Bytes) (h : in_grammar o version header body) :
    parser .fresh [serialize m o version header body] =
      some ⟨.returned (some []), ⟨some ⟨m, .origin o, version⟩, header, body⟩, []⟩ := by
  have hcr : ∀ c ∈ m.name ++ SP :: (serialize_target o ++ SP :: version), c ≠ CR := by
    intro c hc
    rcases List.mem_append.1 hc with hc | hc
    · rintro rfl; revert hc; cases m <;> decide
    · rcases List.mem_cons.1 hc with hc | hc
      · rw [hc]; decide
      · rcases List.mem_append.1 hc with hc | hc
        · rintro rfl
          unfold serialize_target at hc
          rcases List.mem_append.1 hc with hc | hc
          · exact pct_encode_not_mem is_absolute_path_char CR (by decide) (by decide)
              (by decide) o.path h.path_bytes hc
          · by_cases hqe : o.query = []
            · simp [hqe] at hc
            · simp only [hqe, if_false, List.mem_cons] at hc
              rcases hc with hc | hc
              · revert hc; decide
              · exact pct_valid_not_mem (x := CR) (by decide) (by decide) (by decide)
                  h.query_valid hc
        · rcases List.mem_cons.1 hc with hc | hc
          · rw [hc]; decide
          · exact (h.version_plain c hc).2
  have hser : serialize m o version header body =
      (m.name ++ SP :: (serialize_target o ++ SP :: version)) ++ CR :: LF ::
        ((header.map serialize_header).flatten ++ CRLF ++ body.getD []) := by
    simp [serialize]
  have hline := get_line_of_no_CR hcr
    ((header.map serialize_header).flatten ++ CRLF ++ body.getD []) []
  rw [← hser] at hline
  have hreq := parse_request_line_serialized m o version h.path_origin h.path_bytes
    h.query_valid (fun hm => (h.version_plain SP hm).1 rfl)
  have hat : at_header_loop .fresh [serialize m o version header body]
      ⟨some ⟨m, .origin o, version⟩, [], none⟩
      ((header.map serialize_header).flatten ++ CRLF ++ body.getD []) [] :=
    .request_line _ _ _ _ _ _ _ rfl hline hreq
  have hloop : header_loop (header.length + 1) ⟨some ⟨m, .origin o, version⟩, [], none⟩
      ((header.map serialize_header).flatten ++ CRLF ++ body.getD []) [] [] =
      some (.broke ⟨some ⟨m, .origin o, version⟩, header, none⟩ (body.getD []) []) := by
    have := header_loop_serialized header h.names h.values
      ⟨some ⟨m, .origin o, version⟩, [], none⟩ (body.getD [])
    dsimp only at this
    rw [foldl_emplace_distinct header [] (by simpa using h.distinct)] at this
    simpa using this
  rw [parser_of_at_header_loop hat hloop]
  simp only [loop_exit.finish]
  rw [parse_body_serialized _ body rfl h.content_length]

theorem parse_serialize_round_trip_witness :
    parser .fresh
        [serialize .POST ⟨"/a b".toList, "x=1".toList⟩ "HTTP/1.1".toList
          [("Host".toList, "x y".toList), ("Content-Length".toList, "5".toList)]
          (some "hello".toList)] =
      some ⟨.returned (some []),
        ⟨some ⟨.POST, .origin ⟨"/a b".toList, "x=1".toList⟩, "HTTP/1.1".toList⟩,
          [("Host".toList, "x y".toList), ("Content-Length".toList, "5".toList)],
          some "hello".toList⟩, []⟩ :=
  parse_serialize_round_trip .POST ⟨"/a b".toList, "x=1".toList⟩ "HTTP/1.1".toList
    [("Host".toList, "x y".toList), ("Content-Length".toList, "5".toList)] (some "hello".toList)
    ⟨by decide, by decide, by decide, by decide, by decide, by decide, by decide,
      ⟨5, by decide, Or.inr ⟨by decide, "hello".toList, rfl, by decide⟩⟩⟩

/-- C3. Byte accounting on success: when the run on a request object without a body ends with
`co_return data`, the chunks split into the chunks fed and the chunks never taken, the
leftover is a suffix of the last chunk fed, and the chunks fed are, byte for byte, the request
line, the header lines, the blank line (each ended by CRLF), the stored body and the
leftover. -/
theorem parser_byte_accounting (self self' : req_msg) (chunks pending : List Bytes)
    (leftover : Bytes) (hb : self.body = none)
    (h : parser self chunks = some ⟨.returned (some leftover), self', pending⟩) :
    ∃ (fed : List Bytes) (last : Bytes) (line : Bytes) (hlines : List Bytes),
      chunks = fed ++ pending ∧ fed.getLast? = some last ∧ leftover <:+ last ∧
      fed.flatten =
        line ++ CRLF ++ (hlines.map (· ++ CRLF)).flatten ++ CRLF ++ self'.body.getD [] ++ leftover ∧
      parse_request_line line = self'.line ∧
      ∀ l ∈ hlines, (parse_header_line l).isSome = true := by
  obtain ⟨ex, hex⟩ := parse_head_total self chunks
  have hp := parser_of_head hex
  rw [hp] at h
  have hfin : ex.finish = ⟨.returned (some leftover), self', pending⟩ := Option.some.inj h
  cases ex with
  | suspended s => simp [loop_exit.finish] at hfin
  | failed s c => simp [loop_exit.finish] at hfin
  | broke s1 d1 c1 =>
    simp only [loop_exit.finish] at hfin
    obtain ⟨data0, rest0, line, hlines, hc, ha, hl, hbody, hh⟩ := parse_head_broke hex
    obtain ⟨hb2, hline⟩ := parse_body_returned hfin (hbody.trans hb)
    obtain ⟨used, hu, hf, hs⟩ := advances_trans ha hb2
    refine ⟨data0 :: used, used.getLast?.getD data0, line, hlines, ?_, ?_, hs, ?_, ?_, hh⟩
    · rw [hc, hu]; rfl
    · exact List.getLast?_cons
    · simpa [List.append_assoc] using hf
    · rw [hl, hline]

theorem parser_byte_accounting_witness :
    ∃ (fed : List Bytes) (last line : Bytes) (hlines : List Bytes),
      ["POST /a HTTP/1.1\r\nContent-Length: 5\r\n\r\nhe".toList, "lloEXTRA".toList,
          "NEXT".toList] = fed ++ ["NEXT".toList] ∧
      fed.getLast? = some last ∧ "EXTRA".toList <:+ last ∧
      fed.flatten =
        line ++ CRLF ++ (hlines.map (· ++ CRLF)).flatten ++ CRLF ++
          (some "hello".toList).getD [] ++ "EXTRA".toList ∧
      parse_request_line line = some ⟨.POST, .origin ⟨"/a".toList, []⟩, "HTTP/1.1".toList⟩ ∧
      ∀ l ∈ hlines, (parse_header_line l).isSome = true :=
  parser_byte_accounting .fresh
    ⟨some ⟨.POST, .origin ⟨"/a".toList, []⟩, "HTTP/1.1".toList⟩,
      [("Content-Length".toList, "5".toList)], some "hello".toList⟩
    ["POST /a HTTP/1.1\r\nContent-Length: 5\r\n\r\nhe".toList, "lloEXTRA".toList, "NEXT".toList]
    ["NEXT".toList] "EXTRA".toList rfl (by decide)

/-- C4. Body of exactly `Content-Length` bytes: when the coroutine is at the top of the header
loop in front of the blank line and the header map holds `Content-Length` with value `n > 0`,
then however the bytes after the blank line are cut into chunks (`pre`, then `c` in which the
`n`-th byte arrives, then `post`), the run ends with `co_return data`, the body stored is the
first `n` bytes of that stream, the leftover is the rest of `c`, and `post` is never taken. -/
theorem body_is_content_length_bytes (self0 self : req_msg) (chunks0 chunks pre post : List Bytes)
    (data c value : Bytes) (n : Nat)
    (hat : at_header_loop self0 chunks0 self data chunks)
    (hblank : starts_with_CRLF data = true)
    (hcl : self.header.find "Content-Length".toList = some value)
    (hn : stoi value = some n) (hpos : 0 < n)
    (hsplit : data.drop 2 :: chunks = pre ++ c :: post)
    (h1 : pre.flatten.length < n) (h2 : n ≤ pre.flatten.length + c.length) :
    parser self0 chunks0 =
      some ⟨.returned (some (c.drop (n - pre.flatten.length))),
        { self with body := some ((data.drop 2 ++ chunks.flatten).take n) }, post⟩ := by
  have hl : header_loop 1 self data [] chunks = some (.broke self (data.drop 2) chunks) := by
    rw [header_loop]; simp [hblank]
  rw [parser_of_at_header_loop hat hl]
  have hb : body_loop n [] (data.drop 2) chunks =
      some ((pre.flatten ++ c).take n, c.drop (n - pre.flatten.length), post) := by
    have := body_loop_split (n := n) [] hsplit
      (by simp only [List.length_nil, Nat.zero_add]; exact h1)
      (by simp only [List.length_nil, Nat.zero_add]; exact h2)
    simpa using this
  have hflat : data.drop 2 ++ chunks.flatten = pre.flatten ++ c ++ post.flatten := by
    have := congrArg List.flatten hsplit
    simpa [List.append_assoc] using this
  simp only [loop_exit.finish, parse_body, hcl, hn, hpos, if_true, hb, hflat]
  have hle : n ≤ (pre.flatten ++ c).length := by simp only [List.length_append]; omega
  rw [List.take_append_of_le_length hle]

theorem body_is_content_length_bytes_witness :
    parser .fresh ["POST /a HTTP/1.1\r\nContent-Length: 5\r\n\r\nhe".toList, "l".toList,
        "loEXTRA".toList, "NEXT".toList] =
      some ⟨.returned (some "EXTRA".toList),
        ⟨some ⟨.POST, .origin ⟨"/a".toList, []⟩, "HTTP/1.1".toList⟩,
          [("Content-Length".toList, "5".toList)], some "hello".toList⟩, ["NEXT".toList]⟩ :=
  body_is_content_length_bytes .fresh
    ⟨some ⟨.POST, .origin ⟨"/a".toList, []⟩, "HTTP/1.1".toList⟩,
      [("Content-Length".toList, "5".toList)], none⟩
    ["POST /a HTTP/1.1\r\nContent-Length: 5\r\n\r\nhe".toList, "l".toList, "loEXTRA".toList,
      "NEXT".toList]
    ["l".toList, "loEXTRA".toList, "NEXT".toList] ["he".toList, "l".toList] ["NEXT".toList]
    "\r\nhe".toList "loEXTRA".toList "5".toList 5
    (.header_line ⟨some ⟨.POST, .origin ⟨"/a".toList, []⟩, "HTTP/1.1".toList⟩, [], none⟩
      "Content-Length: 5\r\n\r\nhe".toList ["l".toList, "loEXTRA".toList, "NEXT".toList]
      "Content-Length: 5".toList "\r\nhe".toList []
      ["l".toList, "loEXTRA".toList, "NEXT".toList] "Content-Length".toList " 5".toList
      (.request_line "POST /a HTTP/1.1\r\nContent-Length: 5\r\n\r\nhe".toList
        ["l".toList, "loEXTRA".toList, "NEXT".toList] "POST /a HTTP/1.1".toList
        "Content-Length: 5\r\n\r\nhe".toList [] ["l".toList, "loEXTRA".toList, "NEXT".toList]
        ⟨.POST, .origin ⟨"/a".toList, []⟩, "HTTP/1.1".toList⟩
        rfl (by decide) (by decide))
      (by decide) (by decide) (by decide))
    (by decide) (by decide) (by decide) (by decide) (by decide) (by decide) (by decide)

/-- C5. Request-line parsing: when the first line the coroutine reads is `M SP T SP V` with `M`
the name of one of the nine methods, `T` beginning with `/`, the part of `T` before the first
`?` made of absolute-path characters and `%XY` triplets, the part after it made of
absolute-path characters, `?` and `%XY` triplets, and `V` free of spaces, then the run has a
result and the request line stored is method `M`, the origin form whose path is the
percent-decoding of the part of `T` before the first `?` and whose query is the part after it
(empty without `?`), and version `V`. -/
theorem request_line_stored (m : method_t) (T V : Bytes) (self : req_msg) (data : Bytes)
    (chunks : List Bytes) (data' lb : Bytes) (chunks' : List Bytes)
    (hline : get_line data [] chunks = some (m.name ++ SP :: (T ++ SP :: V), data', lb, chunks'))
    (hT : T.head? = some '/')
    (hpath : pct_valid is_absolute_path_char (T.takeWhile (· != '?')) = true)
    (hquery : pct_valid (fun c => is_absolute_path_char c || c == '?')
      ((T.dropWhile (· != '?')).drop 1) = true)
    (hV : SP ∉ V) :
    ∃ (p : Bytes) (r : run), pct_decode (T.takeWhile (· != '?')) = some p ∧
      parser self (data :: chunks) = some r ∧
      r.self.line = some ⟨m, .origin ⟨p, (T.dropWhile (· != '?')).drop 1⟩, V⟩ := by
  obtain ⟨p, h1, h2⟩ := parse_request_line_valid m hT hpath hquery hV
  have hat : at_header_loop self (data :: chunks) _ data' chunks' :=
    .request_line _ _ _ _ _ _ _ rfl hline h2
  obtain ⟨ex, hex⟩ := header_loop_total { self with line := some _ }
    (Nat.lt_succ_self (data'.length + chunks'.flatten.length))
  exact ⟨p, ex.finish, h1, parser_of_at_header_loop hat hex, header_loop_line hex⟩

theorem request_line_stored_witness :
    ∃ (p : Bytes) (r : run), pct_decode ("/".toList.takeWhile (· != '?')) = some p ∧
      parser .fresh ["GET / HTTP/1.1\r\nHost: x\r\n\r\n".toList] = some r ∧
      r.self.line =
        some ⟨.GET, .origin ⟨p, ("/".toList.dropWhile (· != '?')).drop 1⟩, "HTTP/1.1".toList⟩ :=
  request_line_stored .GET "/".toList "HTTP/1.1".toList .fresh
    "GET / HTTP/1.1\r\nHost: x\r\n\r\n".toList [] "Host: x\r\n\r\n".toList [] []
    (by decide) (by decide) (by decide) (by decide) (by decide)

/-- C6. A CRLF cut between CR and LF is not recognised: the minimal GET request fed as
`...\r` then `\n...` is rejected (`get_line` searches each chunk for CRLF on its own, so the
first line runs on to the next CRLF and has four parts), while the same bytes in one chunk are
accepted. -/
theorem crlf_split_across_chunks_rejected :
    ["GET / HTTP/1.1\r".toList, "\nHost: x\r\n\r\n".toList].flatten =
        "GET / HTTP/1.1\r\nHost: x\r\n\r\n".toList ∧
      parser .fresh ["GET / HTTP/1.1\r".toList, "\nHost: x\r\n\r\n".toList] =
        some ⟨.returned none, .fresh, []⟩ ∧
      parser .fresh ["GET / HTTP/1.1\r\nHost: x\r\n\r\n".toList] =
        some ⟨.returned (some []),
          ⟨some ⟨.GET, .origin ⟨"/".toList, []⟩, "HTTP/1.1".toList⟩,
            [("Host".toList, "x".toList)], none⟩, []⟩ := by
  decide

/-- C7, as stated, fails: a request line ended by a lone LF is accepted when no space follows
before the next CRLF (the LF and what follows become part of the version), and a header line
ended by a lone LF is accepted with the rest of the line dropped. -/
theorem bare_LF_accepted :
    parser .fresh ["GET / HTTP/1.1\nHost:x\r\n\r\n".toList] =
        some ⟨.returned (some []),
          ⟨some ⟨.GET, .origin ⟨"/".toList, []⟩, "HTTP/1.1\nHost:x".toList⟩, [], none⟩, []⟩ ∧
      parser .fresh ["GET / HTTP/1.1\r\nA: 1\nB: 2\r\n\r\n".toList] =
        some ⟨.returned (some []),
          ⟨some ⟨.GET, .origin ⟨"/".toList, []⟩, "HTTP/1.1".toList⟩,
            [("A".toList, "1".toList)], none⟩, []⟩ := by
  decide

/-- C7, amended. A lone LF does not end a line; the line runs on to the next CRLF.  When the
first chunk holds a request line `l` with three space-separated parts, a lone LF, text `mid`
that contains a space, and then CRLF (neither `l` nor `mid` holding a CR), the coroutine reads
`l LF mid` as the request line and `co_return`s `std::nullopt`, with nothing stored. -/
theorem bare_LF_request_line_rejected (self : req_msg) (l mid rest : Bytes)
    (chunks : List Bytes) (hl : CR ∉ l) (hmid : CR ∉ mid)
    (hparts : (split_string_view l SP).length = 3) (hsp : SP ∈ mid) :
    get_line (l ++ LF :: (mid ++ CR :: LF :: rest)) [] chunks =
        some (l ++ LF :: mid, rest, [], chunks) ∧
      parser self ((l ++ LF :: (mid ++ CR :: LF :: rest)) :: chunks) =
        some ⟨.returned none, self, chunks⟩ := by
  have hcr : ∀ c ∈ l ++ LF :: mid, c ≠ CR := by
    intro c hc
    rcases List.mem_append.1 hc with h | h
    · rintro rfl; exact hl h
    · rcases List.mem_cons.1 h with h | h
      · rw [h]; decide
      · rintro rfl; exact hmid h
  have hline : get_line (l ++ LF :: (mid ++ CR :: LF :: rest)) [] chunks =
      some (l ++ LF :: mid, rest, [], chunks) := by
    have e : l ++ LF :: (mid ++ CR :: LF :: rest) = (l ++ LF :: mid) ++ CR :: LF :: rest := by
      simp
    rw [e]
    exact get_line_of_no_CR hcr rest chunks
  refine ⟨hline, parser_of_bad_request_line hline (parse_request_line_arity ?_)⟩
  rw [split_string_view_length] at hparts ⊢
  have h1 : 0 < mid.count SP := List.count_pos_iff.2 hsp
  simp only [List.count_append, List.count_cons]
  omega

theorem bare_LF_request_line_rejected_witness :
    get_line ("GET / HTTP/1.1".toList ++ LF :: ("Host: x".toList ++ CR :: LF :: "\r\n".toList))
        [] [] =
        some ("GET / HTTP/1.1".toList ++ LF :: "Host: x".toList, "\r\n".toList, [], []) ∧
      parser .fresh
        [("GET / HTTP/1.1".toList ++ LF :: ("Host: x".toList ++ CR :: LF :: "\r\n".toList))] =
        some ⟨.returned none, .fresh, []⟩ :=
  bare_LF_request_line_rejected .fresh "GET / HTTP/1.1".toList "Host: x".toList "\r\n".toList []
    (by decide) (by decide) (by decide) (by decide)

/-- C8. Malformed header lines are rejected: when the coroutine is at the top of the header
loop, not in front of the blank line, and the line it reads has an empty field-name (no
leading tchar), or no `:` right after the field-name, or an empty field-value (no tchar or
space after the `:`), the run ends with `co_return std::nullopt`. -/
theorem malformed_header_line_rejected (self0 self : req_msg) (chunks0 chunks chunks' : List Bytes)
    (data line data' lb : Bytes)
    (hat : at_header_loop self0 chunks0 self data chunks)
    (hnb : starts_with_CRLF data = false)
    (hline : get_line data [] chunks = some (line, data', lb, chunks'))
    (hbad : line.takeWhile is_tchar = [] ∨ (line.dropWhile is_tchar).head? ≠ some ':' ∨
      ((line.dropWhile is_tchar).drop 1).takeWhile (fun c => is_tchar c || c == ' ') = []) :
    parser self0 chunks0 = some ⟨.returned none, self, chunks'⟩ :=
  parser_of_at_header_loop hat
    (header_loop_of_bad_line hnb hline (parse_header_line_malformed hbad))

theorem malformed_header_line_rejected_witness :
    parser .fresh ["GET / HTTP/1.1\r\nHost x\r\n".toList, "\r\n".toList] =
      some ⟨.returned none, ⟨some ⟨.GET, .origin ⟨"/".toList, []⟩, "HTTP/1.1".toList⟩, [], none⟩,
        ["\r\n".toList]⟩ :=
  malformed_header_line_rejected .fresh
    ⟨some ⟨.GET, .origin ⟨"/".toList, []⟩, "HTTP/1.1".toList⟩, [], none⟩
    ["GET / HTTP/1.1\r\nHost x\r\n".toList, "\r\n".toList] ["\r\n".toList] ["\r\n".toList]
    "Host x\r\n".toList "Host x".toList [] []
    (.request_line "GET / HTTP/1.1\r\nHost x\r\n".toList ["\r\n".toList]
      "GET / HTTP/1.1".toList "Host x\r\n".toList [] ["\r\n".toList]
      ⟨.GET, .origin ⟨"/".toList, []⟩, "HTTP/1.1".toList⟩ rfl (by decide) (by decide))
    (by decide) (by decide) (by decide)

/-- C9 fails on a leading tab: the value token stops at the first character that is neither a
tchar nor a space, so for `A: <TAB>v` the value stored under `A` is empty instead of `v`, and
`A:<TAB>v` is rejected; trailing blanks are dropped as the claim says. -/
theorem leading_tab_loses_header_value :
    parser .fresh ["GET / HTTP/1.1\r\nA: \tv\r\n\r\n".toList] =
        some ⟨.returned (some []),
          ⟨some ⟨.GET, .origin ⟨"/".toList, []⟩, "HTTP/1.1".toList⟩,
            [("A".toList, [])], none⟩, []⟩ ∧
      parser .fresh ["GET / HTTP/1.1\r\nA:\tv\r\n\r\n".toList] =
        some ⟨.returned none,
          ⟨some ⟨.GET, .origin ⟨"/".toList, []⟩, "HTTP/1.1".toList⟩, [], none⟩, []⟩ ∧
      parser .fresh ["GET / HTTP/1.1\r\nA: v \t \r\n\r\n".toList] =
        some ⟨.returned (some []),
          ⟨some ⟨.GET, .origin ⟨"/".toList, []⟩, "HTTP/1.1".toList⟩,
            [("A".toList, "v".toList)], none⟩, []⟩ := by
  decide

/-- C10. Wrong arity or unknown method is rejected: when the first line the coroutine reads
does not split on the space character into exactly three parts, or its first part is not one
of the nine method names, the run ends with `co_return std::nullopt` and nothing is stored. -/
theorem bad_request_line_rejected (self : req_msg) (data line data' lb : Bytes)
    (chunks chunks' : List Bytes)
    (hline : get_line data [] chunks = some (line, data', lb, chunks'))
    (hbad : (split_string_view line SP).length ≠ 3 ∨
      ∀ p0, (split_string_view line SP).head? = some p0 →
        p0 ∉ ["GET".toList, "HEAD".toList, "POST".toList, "PUT".toList, "DELETE".toList,
          "OPTIONS".toList, "TRACE".toList, "CONNECT".toList, "PATCH".toList]) :
    parser self (data :: chunks) = some ⟨.returned none, self, chunks'⟩ := by
  rcases hbad with h | h
  · exact parser_of_bad_request_line hline (parse_request_line_arity h)
  · exact parser_of_bad_request_line hline (parse_request_line_method h)

theorem bad_request_line_rejected_witness :
    parser .fresh ["FOO\r\n\r\n".toList] = some ⟨.returned none, .fresh, []⟩ :=
  bad_request_line_rejected .fresh "FOO\r\n\r\n".toList "FOO".toList "\r\n".toList [] [] []
    (by decide) (Or.inl (by decide))

/-- C11. Invalid percent escapes are rejected, and acceptance is exactly validity.  For every
target `T` beginning with `/`, with `path` the part before the first `?` and `query` the part
after it: `parse_request_target` accepts `T` exactly when every character of `path` is an
absolute-path character or starts a `%XY` triplet and every character of `query` is an
absolute-path character, `?`, or starts a `%XY` triplet; when `path` or `query` holds a `%`
not followed by two hexadecimal digits, `parse_request_target` fails; and when it fails on
the second part of the first line the coroutine reads, the run ends with
`co_return std::nullopt`. -/
theorem origin_target_accepted_iff_valid (T : Bytes) (hT : T.head? = some '/') :
    ((parse_request_target T).isSome = true ↔
        pct_valid is_absolute_path_char (T.takeWhile (· != '?')) = true ∧
          pct_valid (fun c => is_absolute_path_char c || c == '?')
            ((T.dropWhile (· != '?')).drop 1) = true) ∧
      (has_bad_percent (T.takeWhile (· != '?')) ∨
          has_bad_percent ((T.dropWhile (· != '?')).drop 1) →
        parse_request_target T = none) ∧
      ∀ (self : req_msg) (data line data' lb : Bytes) (chunks chunks' : List Bytes),
        get_line data [] chunks = some (line, data', lb, chunks') →
        (split_string_view line SP)[1]? = some T → parse_request_target T = none →
        parser self (data :: chunks) = some ⟨.returned none, self, chunks'⟩ := by
  have hiff := parse_request_target_isSome hT
  refine ⟨?_, ?_, ?_⟩
  · rw [hiff, Bool.and_eq_true]
  · intro hbad
    have : (parse_request_target T).isSome = false := by
      rw [hiff]
      rcases hbad with h | h
      · rw [pct_valid_of_bad_percent (by decide) h, Bool.false_and]
      · rw [pct_valid_of_bad_percent (by decide) h, Bool.and_false]
    cases hp : parse_request_target T with
    | none => rfl
    | some t => rw [hp] at this; exact Bool.noConfusion this
  · intro self data line data' lb chunks chunks' hline h1 hfail
    exact parser_of_bad_request_line hline (parse_request_line_bad_target h1 hfail)

theorem origin_target_accepted_iff_valid_witness :
    parse_request_target "/a%zz".toList = none ∧
      parser .fresh ["GET /a%zz HTTP/1.1\r\n\r\n".toList] = some ⟨.returned none, .fresh, []⟩ :=
  have h := origin_target_accepted_iff_valid "/a%zz".toList (by decide)
  have hnone : parse_request_target "/a%zz".toList = none :=
    h.2.1 (Or.inl ⟨"/a".toList, "zz".toList, by decide, by decide⟩)
  ⟨hnone, h.2.2 .fresh "GET /a%zz HTTP/1.1\r\n\r\n".toList "GET /a%zz HTTP/1.1".toList
    "\r\n".toList [] [] [] (by decide) (by decide) hnone⟩

/-- C12. A non-numeric or negative `Content-Length` is rejected: when the coroutine is at the
top of the header loop in front of the blank line and the header map holds `Content-Length`
with a value that is not a non-empty run of decimal digits (so also `-5`), the run ends with
`co_return std::nullopt` at once: it is not suspended, whatever chunks are still to come, and
none of them is taken. -/
theorem bad_content_length_rejected (self0 self : req_msg) (chunks0 chunks : List Bytes)
    (data value : Bytes)
    (hat : at_header_loop self0 chunks0 self data chunks)
    (hblank : starts_with_CRLF data = true)
    (hcl : self.header.find "Content-Length".toList = some value)
    (hbad : value = [] ∨ ∃ c ∈ value, c.isDigit = false) :
    parser self0 chunks0 = some ⟨.returned none, self, chunks⟩ := by
  rw [parser_at_blank_line hat hblank]
  simp only [parse_body, hcl, stoi_of_not_digits hbad]

theorem bad_content_length_rejected_witness :
    parser .fresh ["POST /a HTTP/1.1\r\nContent-Length: -5\r\n\r\nhello".toList, "more".toList] =
      some ⟨.returned none,
        ⟨some ⟨.POST, .origin ⟨"/a".toList, []⟩, "HTTP/1.1".toList⟩,
          [("Content-Length".toList, "-5".toList)], none⟩, ["more".toList]⟩ :=
  bad_content_length_rejected .fresh
    ⟨some ⟨.POST, .origin ⟨"/a".toList, []⟩, "HTTP/1.1".toList⟩,
      [("Content-Length".toList, "-5".toList)], none⟩
    ["POST /a HTTP/1.1\r\nContent-Length: -5\r\n\r\nhello".toList, "more".toList]
    ["more".toList] "\r\nhello".toList "-5".toList
    (.header_line ⟨some ⟨.POST, .origin ⟨"/a".toList, []⟩, "HTTP/1.1".toList⟩, [], none⟩
      "Content-Length: -5\r\n\r\nhello".toList ["more".toList]
      "Content-Length: -5".toList "\r\nhello".toList [] ["more".toList]
      "Content-Length".toList " -5".toList
      (.request_line "POST /a HTTP/1.1\r\nContent-Length: -5\r\n\r\nhello".toList
        ["more".toList] "POST /a HTTP/1.1".toList "Content-Length: -5\r\n\r\nhello".toList []
        ["more".toList] ⟨.POST, .origin ⟨"/a".toList, []⟩, "HTTP/1.1".toList⟩
        rfl (by decide) (by decide))
      (by decide) (by decide) (by decide))
    (by decide) (by decide) (Or.inr ⟨'-', by decide, by decide⟩)

/-- C13. No body without a positive `Content-Length`: when the coroutine is at the top of the
header loop in front of the blank line and the header map holds no `Content-Length`, or one
whose value parses as `0`, the run ends with `co_return data` at once (it is not suspended
and takes no further chunk), the request object is left as it is, its body being the one it
had before the run, and the leftover is every byte of the current chunk after the blank
line. -/
theorem no_body_without_content_length (self0 self : req_msg) (chunks0 chunks : List Bytes)
    (data : Bytes)
    (hat : at_header_loop self0 chunks0 self data chunks)
    (hblank : starts_with_CRLF data = true)
    (hcl : self.header.find "Content-Length".toList = none ∨
      ∃ value, self.header.find "Content-Length".toList = some value ∧ stoi value = some 0) :
    parser self0 chunks0 = some ⟨.returned (some (data.drop 2)), self, chunks⟩ ∧
      self.body = self0.body := by
  refine ⟨?_, at_header_loop_body hat⟩
  rw [parser_at_blank_line hat hblank]
  rcases hcl with h | ⟨value, h, h0⟩
  · simp only [parse_body, h]
  · simp only [parse_body, h, h0]
    rfl

theorem no_body_without_content_length_witness :
    parser .fresh ["POST /a HTTP/1.1\r\nContent-Length: 0\r\n\r\nNEXT".toList, "more".toList] =
        some ⟨.returned (some "NEXT".toList),
          ⟨some ⟨.POST, .origin ⟨"/a".toList, []⟩, "HTTP/1.1".toList⟩,
            [("Content-Length".toList, "0".toList)], none⟩, ["more".toList]⟩ ∧
      (none : Option Bytes) = req_msg.fresh.body :=
  no_body_without_content_length .fresh
    ⟨some ⟨.POST, .origin ⟨"/a".toList, []⟩, "HTTP/1.1".toList⟩,
      [("Content-Length".toList, "0".toList)], none⟩
    ["POST /a HTTP/1.1\r\nContent-Length: 0\r\n\r\nNEXT".toList, "more".toList]
    ["more".toList] "\r\nNEXT".toList
    (.header_line ⟨some ⟨.POST, .origin ⟨"/a".toList, []⟩, "HTTP/1.1".toList⟩, [], none⟩
      "Content-Length: 0\r\n\r\nNEXT".toList ["more".toList]
      "Content-Length: 0".toList "\r\nNEXT".toList [] ["more".toList]
      "Content-Length".toList " 0".toList
      (.request_line "POST /a HTTP/1.1\r\nContent-Length: 0\r\n\r\nNEXT".toList
        ["more".toList] "POST /a HTTP/1.1".toList "Content-Length: 0\r\n\r\nNEXT".toList []
        ["more".toList] ⟨.POST, .origin ⟨"/a".toList, []⟩, "HTTP/1.1".toList⟩
        rfl (by decide) (by decide))
      (by decide) (by decide) (by decide))
    (by decide) (Or.inr ⟨"0".toList, by decide, by decide⟩)

/-- C14. Path percent-decoding: for every path made only of absolute-path characters and
valid `%XY` triplets, `parse_absolute_path` returns the path with every triplet replaced by
the single byte of value `16 * hex(X) + hex(Y)` and every other character copied, in order;
the length of the result is the length of the path minus twice the number of triplets. -/
theorem parse_absolute_path_decodes (path : Bytes)
    (h : pct_valid is_absolute_path_char path = true) :
    parse_absolute_path path = some (pct_replace path) ∧
      (pct_replace path).length = path.length - 2 * pct_triplets path := by
  obtain ⟨e1, e2⟩ := parse_absolute_path_loop_valid_aux path.length path (Nat.le_refl _) h []
  exact ⟨by simpa [parse_absolute_path] using e1, by omega⟩

theorem parse_absolute_path_decodes_witness :
    parse_absolute_path "/hello%20world".toList = some "/hello world".toList ∧
      "/hello world".toList.length = "/hello%20world".toList.length - 2 * 1 :=
  parse_absolute_path_decodes "/hello%20world".toList (by decide)

/-- C15. Percent round trip: for every string over ASCII, and every choice `keep` of the
bytes written as they are that does not contain `%`, `pct_decode` applied to the
percent-encoding of the string (every other byte written as `%` and its two hexadecimal
digits) succeeds and returns the string. -/
theorem pct_decode_pct_encode (keep : Char → Bool) (s : Bytes) (hk : keep '%' = false)
    (hs : ∀ c ∈ s, c.toNat < 128) : pct_decode (pct_encode keep s) = some s := by
  have := pct_decode_encode keep hk (fun c hc => Nat.lt_trans (hs c hc) (by decide)) []
  simpa [pct_decode] using this

theorem pct_decode_pct_encode_witness :
    pct_decode "a%20b%25c%2F%7Ed".toList = some "a b%c/~d".toList :=
  pct_decode_pct_encode Char.isAlpha "a b%c/~d".toList (by decide) (by decide)

set_option maxRecDepth 20000 in
/-- C16 fails at the byte 0: the range-`for` of `tchar_helper_map` runs over the whole array
of the string literal, terminating NUL included, so `is_tchar` accepts the byte 0, which is
no token character; on every other byte value `is_tchar` is the RFC 7230 token character
set. -/
theorem is_tchar_accepts_nul :
    is_tchar (Char.ofNat 0) = true ∧ is_rfc_tchar (Char.ofNat 0) = false ∧
      ∀ n < 256, n ≠ 0 → is_tchar (Char.ofNat n) = is_rfc_tchar (Char.ofNat n) := by
  decide

set_option maxRecDepth 20000 in
/-- C17 fails at the byte 0: the range-`for` of `absolute_path_char_helper_map` runs over the
whole array of the string literal, terminating NUL included, so `is_absolute_path_char`
accepts the byte 0; on every other byte value it is exactly unreserved, sub-delims, `:`,
`@` and `/`. -/
theorem is_absolute_path_char_accepts_nul :
    is_absolute_path_char (Char.ofNat 0) = true ∧ is_rfc_path_char (Char.ofNat 0) = false ∧
      ∀ n < 256, n ≠ 0 →
        is_absolute_path_char (Char.ofNat n) = is_rfc_path_char (Char.ofNat n) := by
  decide

/-- C22. Line accumulation across chunks: when the first CRLF of the remaining input (the
cursor `data` followed by the chunks still to come) lies wholly inside one chunk `c`, with
the chunks `pre` before it and `post` after it, `get_line` yields as `line_view` exactly the
bytes of the concatenated input in front of that CRLF, leaves the cursor in `c` on the byte
just after the CRLF, so that what remains is the concatenated input after the CRLF, and takes
no chunk of `post`. -/
theorem get_line_accumulates (data c : Bytes) (chunks pre post : List Bytes) (e : Nat)
    (hfirst : find_CRLF (data ++ chunks.flatten) = some e)
    (hsplit : data :: chunks = pre ++ c :: post)
    (h1 : pre.flatten.length ≤ e) (h2 : e + 2 ≤ pre.flatten.length + c.length) :
    (∃ line_buffer, get_line data [] chunks =
        some ((data ++ chunks.flatten).take e, c.drop (e - pre.flatten.length + 2),
          line_buffer, post)) ∧
      c.drop (e - pre.flatten.length + 2) ++ post.flatten =
        (data ++ chunks.flatten).drop (e + 2) := by
  have hflat : data ++ chunks.flatten = pre.flatten ++ (c ++ post.flatten) := by
    have := congrArg List.flatten hsplit
    simpa using this
  constructor
  · cases pre with
    | nil =>
      simp only [List.nil_append, List.cons.injEq] at hsplit
      obtain ⟨rfl, rfl⟩ := hsplit
      simp only [List.flatten_nil, List.length_nil, Nat.zero_add, Nat.sub_zero] at h1 h2 ⊢
      have hc := find_CRLF_append_left hfirst h2
      refine ⟨[], ?_⟩
      rw [get_line, hc]
      simp only [Option.some.injEq, Prod.mk.injEq, and_true, true_and]
      rw [List.take_append_of_le_length (by omega)]
    | cons p ps =>
      simp only [List.cons_append, List.cons.injEq] at hsplit
      obtain ⟨rfl, rfl⟩ := hsplit
      simp only [List.flatten_cons, List.length_append] at h1 h2 ⊢
      obtain ⟨hp, hrest⟩ := find_CRLF_append_right hfirst (by omega)
      rw [get_line, hp]
      simp only [List.nil_append]
      rw [get_line_wait_first_CRLF data ps (ps ++ c :: post) post c (e - data.length) rfl hrest
        (by omega) (by omega)]
      refine ⟨data ++ List.take (e - data.length) (ps ++ c :: post).flatten, ?_⟩
      have hd : data.length ≤ e := by omega
      have ht : List.take e (data ++ (ps ++ c :: post).flatten) =
          data ++ List.take (e - data.length) (ps ++ c :: post).flatten := by
        rw [List.take_append_eq_append_take, List.take_of_length_le hd]
      rw [ht, Nat.sub_sub]
  · rw [hflat, show e + 2 = pre.flatten.length + (e - pre.flatten.length + 2) by omega,
      List.drop_append, List.drop_append_of_le_length (by omega)]

theorem get_line_accumulates_witness :
    ((∃ line_buffer, get_line "A: 1".toList [] ["\r\nB: 2\r\n\r\n".toList] =
          some ("A: 1".toList, "B: 2\r\n\r\n".toList, line_buffer, [])) ∧
        "B: 2\r\n\r\n".toList ++ ([] : List Bytes).flatten = "B: 2\r\n\r\n".toList) ∧
      ((∃ line_buffer, get_line "B: 2\r\n\r\n".toList [] [] =
          some ("B: 2".toList, "\r\n".toList, line_buffer, [])) ∧
        "\r\n".toList ++ ([] : List Bytes).flatten = "\r\n".toList) :=
  ⟨get_line_accumulates "A: 1".toList "\r\nB: 2\r\n\r\n".toList ["\r\nB: 2\r\n\r\n".toList]
      ["A: 1".toList] [] 4 (by decide) (by decide) (by decide) (by decide),
    get_line_accumulates "B: 2\r\n\r\n".toList "B: 2\r\n\r\n".toList [] [] [] 4
      (by decide) (by decide) (by decide) (by decide)⟩

/-- C23. Absolute-form is a stub: for every target string that does not begin with `/`, the
empty string included, `parse_request_target` succeeds and returns the one empty
absolute-form value, whatever the string. -/
theorem absolute_form_is_stub (str : Bytes) (h : str.head? ≠ some '/') :
    parse_request_target str = some .absolute_form := by
  unfold parse_request_target
  rw [if_neg h]

theorem absolute_form_is_stub_witness :
    parse_request_target "http://example.com/%zz ?".toList = some .absolute_form :=
  absolute_form_is_stub "http://example.com/%zz ?".toList (by decide)

/-- C24. The function `trim_string_view` removes exactly the surrounding blanks: for every
string `s` the result is `s` without its maximal leading run of spaces and tabs and then
without the maximal trailing run of what is left; `s` is that leading run, the result, and
that trailing run, in this order; the result neither begins nor ends with a space or tab;
and trimming the result again returns it unchanged. -/
theorem trim_string_view_removes_blanks (s : Bytes) :
    trim_string_view s = (s.dropWhile is_blank).rdropWhile is_blank ∧
      s = s.takeWhile is_blank ++ trim_string_view s ++
        (s.dropWhile is_blank).rtakeWhile is_blank ∧
      (∀ c ∈ s.takeWhile is_blank, is_blank c = true) ∧
      (∀ c ∈ (s.dropWhile is_blank).rtakeWhile is_blank, is_blank c = true) ∧
      (∀ c, (trim_string_view s).head? = some c → is_blank c = false) ∧
      (∀ c, (trim_string_view s).getLast? = some c → is_blank c = false) ∧
      trim_string_view (trim_string_view s) = trim_string_view s := by
  refine ⟨trim_string_view_eq s, ?_, fun c hc => List.mem_takeWhile_imp hc,
    fun c hc => List.mem_rtakeWhile_imp hc, trim_string_view_head s, trim_string_view_last s,
    trim_string_view_of_plain (trim_string_view_head s) (trim_string_view_last s)⟩
  rw [trim_string_view_eq, List.append_assoc, rdropWhile_append_rtakeWhile,
    List.takeWhile_append_dropWhile]

/-- C25, as stated, fails for a repeated name: the line `A: 2` after `A: 1` is accepted, but
`header.emplace` does not replace an entry, so the value stored under `A` stays `1` and is not
the trimmed token prefix `2` of the second line. -/
theorem repeated_header_keeps_first_value :
    parser .fresh ["GET / HTTP/1.1\r\nA: 1\r\nA: 2\r\n\r\n".toList] =
        some ⟨.returned (some []),
          ⟨some ⟨.GET, .origin ⟨"/".toList, []⟩, "HTTP/1.1".toList⟩,
            [("A".toList, "1".toList)], none⟩, []⟩ ∧
      header_t.find [("A".toList, "1".toList)] "A".toList = some "1".toList ∧
      trim_string_view (" 2".toList.takeWhile (fun c => is_tchar c || c == ' ')) =
        "2".toList := by
  decide

/-- C25, amended. Header value is the trimmed longest token prefix, the rest of the line is
discarded: when the coroutine is at the top of the header loop, not in front of the blank
line, and reads the line `name ':' rest` with `name` a non-empty run of tchars and `p`, the
longest prefix of `rest` made of tchars and spaces, non-empty, the line is accepted and the
coroutine is back at the top of the loop with `header.emplace(name, trim(p))` done: the value
stored under `name` is `trim(p)` when no equal name was stored before, and the header map is
unchanged otherwise.  The state reached depends on `rest` through `p` only. -/
theorem header_value_is_trimmed_longest_token (self0 self : req_msg)
    (chunks0 chunks chunks' : List Bytes) (data data' lb name rest : Bytes)
    (hat : at_header_loop self0 chunks0 self data chunks)
    (hnb : starts_with_CRLF data = false)
    (hline : get_line data [] chunks = some (name ++ ':' :: rest, data', lb, chunks'))
    (hname : name ≠ []) (htchar : ∀ c ∈ name, is_tchar c = true)
    (hp : rest.takeWhile (fun c => is_tchar c || c == ' ') ≠ []) :
    at_header_loop self0 chunks0
        { self with
          header := self.header.emplace name
            (trim_string_view (rest.takeWhile (fun c => is_tchar c || c == ' '))) }
        data' chunks' ∧
      (self.header.find name = none →
        (self.header.emplace name
            (trim_string_view (rest.takeWhile (fun c => is_tchar c || c == ' ')))).find name =
          some (trim_string_view (rest.takeWhile (fun c => is_tchar c || c == ' ')))) ∧
      ∀ v, self.header.find name = some v →
        self.header.emplace name
            (trim_string_view (rest.takeWhile (fun c => is_tchar c || c == ' '))) =
          self.header := by
  refine ⟨?_, fun h => find_emplace_of_absent _ _ _ h,
    fun v h => find_emplace_of_present _ _ _ v h⟩
  have := at_header_loop.header_line self data chunks (name ++ ':' :: rest) data' lb chunks'
    name (rest.takeWhile (fun c => is_tchar c || c == ' ')) hat hnb hline
    (parse_header_line_longest_token hname htchar hp)
  rw [trim_string_view_tchars htchar] at this
  exact this

theorem header_value_is_trimmed_longest_token_witness :
    at_header_loop .fresh ["GET / HTTP/1.1\r\nHost: a b :8080\tx\r\n\r\n".toList]
        ⟨some ⟨.GET, .origin ⟨"/".toList, []⟩, "HTTP/1.1".toList⟩,
          [("Host".toList, "a b".toList)], none⟩
        "\r\n".toList [] ∧
      header_t.find [("Host".toList, "a b".toList)] "Host".toList = some "a b".toList :=
  have h := header_value_is_trimmed_longest_token .fresh
    ⟨some ⟨.GET, .origin ⟨"/".toList, []⟩, "HTTP/1.1".toList⟩, [], none⟩
    ["GET / HTTP/1.1\r\nHost: a b :8080\tx\r\n\r\n".toList] [] []
    "Host: a b :8080\tx\r\n\r\n".toList "\r\n".toList [] "Host".toList
    " a b :8080\tx".toList
    (.request_line "GET / HTTP/1.1\r\nHost: a b :8080\tx\r\n\r\n".toList []
      "GET / HTTP/1.1".toList "Host: a b :8080\tx\r\n\r\n".toList [] []
      ⟨.GET, .origin ⟨"/".toList, []⟩, "HTTP/1.1".toList⟩ rfl (by decide) (by decide))
    (by decide) (by decide) (by decide) (by decide) (by decide)
  ⟨h.1, h.2.1 (by decide)⟩

/-- C26. The function `parse_absolute_path` refines `pct_decode`: for every string `s`, a
result of `parse_absolute_path` is also the result of `pct_decode`; and when every character
of `s` other than `%` is an absolute-path character, the two agree on `s`, failures
included. -/
theorem parse_absolute_path_refines_pct_decode (s : Bytes) :
    (∀ r, parse_absolute_path s = some r → pct_decode s = some r) ∧
      ((∀ c ∈ s, c ≠ '%' → is_absolute_path_char c = true) →
        parse_absolute_path s = pct_decode s) := by
  constructor
  · intro r hr
    have hv : pct_valid is_absolute_path_char s = true := by
      rw [← parse_absolute_path_isSome, hr]; rfl
    obtain ⟨p, h1, h2⟩ := pct_loops_agree hv
    rw [h1] at hr
    cases hr
    exact h2
  · intro h
    exact pct_loops_equal_aux s.length s (Nat.le_refl _) h []

theorem parse_absolute_path_refines_pct_decode_witness :
    (parse_absolute_path "/a%20b".toList = some "/a b".toList ∧
        pct_decode "/a%20b".toList = some "/a b".toList) ∧
      parse_absolute_path "/a%2".toList = pct_decode "/a%2".toList ∧
      (parse_absolute_path "/a b".toList = none ∧
        pct_decode "/a b".toList = some "/a b".toList) :=
  ⟨⟨by decide,
      (parse_absolute_path_refines_pct_decode "/a%20b".toList).1 "/a b".toList (by decide)⟩,
    (parse_absolute_path_refines_pct_decode "/a%2".toList).2 (by decide),
    by decide, by decide⟩

end http

namespace coro_io

/-! ## Arithmetic of `duration_cast` -/

/-- C18. Reactor submit gate, on the explicit state: `submit` returns `true` exactly when
`is_worker_running` is set; it never changes the flag; when it returns `true` the queue is the
old queue with the one request `(helper_ptr, ring_handle)` at its tail and the permit count
is one more; when it returns `false` the queue and the permit count are unchanged. -/
theorem submit_gate (self : coro_io_ctx) (helper_ptr ring_handle : Nat) :
    ((self.submit helper_ptr ring_handle).1 = true ↔ self.is_worker_running = true) ∧
      (self.submit helper_ptr ring_handle).2.is_worker_running = self.is_worker_running ∧
      ((self.submit helper_ptr ring_handle).1 = true →
        (self.submit helper_ptr ring_handle).2.unprocessed_requests =
            self.unprocessed_requests ++ [⟨helper_ptr, ring_handle⟩] ∧
          (self.submit helper_ptr ring_handle).2.unp_sem = self.unp_sem + 1) ∧
      ((self.submit helper_ptr ring_handle).1 = false →
        (self.submit helper_ptr ring_handle).2.unprocessed_requests =
            self.unprocessed_requests ∧
          (self.submit helper_ptr ring_handle).2.unp_sem = self.unp_sem) := by
  obtain ⟨running, sem, queue⟩ := self
  cases running <;> simp [coro_io_ctx.submit, mpsc_queue_emplace_back]

/-- C19. Link-timeout result mapping: `await_resume` returns the empty outcome exactly when
the return code of the stored completion is `-ECANCELED`; in every other case, success or
kernel error, it returns that completion unchanged. -/
theorem await_resume_maps_canceled (cqe : io_uring_cqe) :
    (link_timeout_await_resume cqe = none ↔ cqe.res = -ECANCELED) ∧
      (link_timeout_await_resume cqe = none ∨ link_timeout_await_resume cqe = some cqe) := by
  unfold link_timeout_await_resume
  by_cases h : cqe.res = -ECANCELED <;> simp [h]

end coro_io
